import Mathlib

/-!
Verification of the Outline document compiler (`outline_compiler.py`).

Python strings are modelled as `List Char`.  Each definition below mirrors the
Python source function of the same (snake-case) name; helper definitions carry
comments pointing at the corresponding source lines.  Regular-expression based
functions (`re.sub` on the mermaid fence pattern and on the mention pattern)
are modelled by left-to-right scanners that implement the deterministic
behaviour of the concrete patterns; the determinism arguments (how greedy and
lazy parts resolve for these specific patterns) are recorded in comments next
to the scanners.
-/

/-- Python strings, modelled as lists of characters. -/
abbrev Str := List Char

/-- Coerce a Lean string literal to the model type. -/
def chars (s : String) : Str := s.data

/-- The ASCII whitespace characters recognised by Python `str.strip`,
`str.lstrip` and by the regex class `\s` (the model restricts attention to
ASCII whitespace; no claim exercises non-ASCII whitespace). -/
def isPySpace (c : Char) : Bool :=
  c = ' ' || c = '\t' || c = '\n' || c = '\r' || c = '\x0b' || c = '\x0c'

/-- Python `str.lstrip()`. -/
def lstripChars (s : Str) : Str := s.dropWhile isPySpace

/-- Python `str.strip()`. -/
def stripChars (s : Str) : Str :=
  ((s.dropWhile isPySpace).reverse.dropWhile isPySpace).reverse

/-- Bool test that the first argument is a prefix of the second. -/
def startsWith : Str → Str → Bool
  | [], _ => true
  | _ :: _, [] => false
  | p :: ps, c :: cs => p == c && startsWith ps cs

/-- Python substring test `pat in s` (for nonempty `pat`). -/
def strContains : Str → Str → Bool
  | [], pat => pat.isEmpty
  | c :: cs, pat => startsWith pat (c :: cs) || strContains cs pat

/-- Fuelled worker for `replaceAll`; the fuel bounds the number of scanning
steps and equals the length of the scanned string at the top level. -/
def replaceAllGo (pat rep : Str) : Nat → Str → Str
  | 0, s => s
  | _ + 1, [] => []
  | fuel + 1, c :: cs =>
    if startsWith pat (c :: cs) then
      rep ++ replaceAllGo pat rep fuel ((c :: cs).drop pat.length)
    else
      c :: replaceAllGo pat rep fuel cs

/-- Python `s.replace(pat, rep)`: replace every occurrence of `pat`,
left-to-right and non-overlapping.  (All uses in the source have nonempty
`pat`, and the model is only claimed faithful for nonempty `pat`.) -/
def replaceAll (pat rep s : Str) : Str := replaceAllGo pat rep s.length s

/-- Decimal digits of a natural number, as produced by the Python
f-string interpolation `f"...{i}..."`. -/
def natRepr (n : Nat) : Str := Nat.toDigits 10 n

/-- Source line 261: `f'MERMAID_PLACEHOLDER_{len(mermaid_blocks)}'`. -/
def placeholderStr (n : Nat) : Str := chars "MERMAID_PLACEHOLDER_" ++ natRepr n

/-- The fixed prefix shared by all placeholders. -/
def markerStr : Str := chars "MERMAID_PLACEHOLDER_"

/-- Opening text of the restored diagram container (source line 281). -/
def divOpenStr : Str := chars "<div class=\"mermaid\">\n"

/-- Closing text of the restored diagram container (source line 281). -/
def divCloseStr : Str := chars "\n</div>"

/-- Source line 281: `f'<div class="mermaid">\n{mermaid_code}\n</div>'`. -/
def mermaidDiv (code : Str) : Str := divOpenStr ++ code ++ divCloseStr

/-- Source line 284: the paragraph-wrapped form `<p>...</p>` of a placeholder. -/
def pWrap (s : Str) : Str := chars "<p>" ++ s ++ chars "</p>"

/-- Split a string at the first occurrence of `pat`, returning the part before
the occurrence and the part after it. -/
def splitFirst (pat : Str) : Str → Option (Str × Str)
  | [] => none
  | c :: cs =>
    if startsWith pat (c :: cs) then some ([], (c :: cs).drop pat.length)
    else
      match splitFirst pat cs with
      | some (a, b) => some (c :: a, b)
      | none => none

/-- Body part of the mermaid fence pattern, after the opening literal.
The regex fragment is `\s*\n(.*?)\n```` ``` (DOTALL).  For this fragment the
backtracking resolves deterministically: let `w` be the maximal whitespace run
at the current position; `\s*\n` consumes `w` up to and including the LAST
newline inside `w` (greedy `\s*` backtracks until the next character is a
newline, and if the lazy group later fails no earlier newline can help,
because the first occurrence of `"\n```"` lies at or after the end of `w`
for every choice); the lazy group then extends to the first occurrence of
`"\n```"`.  If `w` contains no newline, or no `"\n```"` follows, the whole
attempt fails. -/
def fenceBody (t : Str) : Option (Str × Str) :=
  let w := t.takeWhile isPySpace
  if w.contains '\n' then
    splitFirst (chars "\n```") ((w.reverse.takeWhile (fun c => c != '\n')).reverse ++ t.drop w.length)
  else none

/-- One attempt of the mermaid fence regex ` ```mermaid(?:js)?\s*\n(.*?)\n``` `
at the current position.  `(?:js)?` is greedy, so the `js` spelling is tried
first; if the literal `js` is present but the body fails, the branch without
`js` also fails (the next character is then `j`, which is not whitespace), so
the attempt resolves deterministically on the literal header. -/
def matchFence (s : Str) : Option (Str × Str) :=
  if startsWith (chars "```mermaidjs") s then fenceBody (s.drop 12)
  else if startsWith (chars "```mermaid") s then fenceBody (s.drop 10)
  else none

/-- Fuelled worker for `_extract_mermaid_blocks` (source lines 244-266):
scan left to right; at each position attempt the fence pattern; on success
emit a placeholder (numbered by the running count of collected blocks), store
the stripped group, and continue after the match; otherwise copy one
character. -/
def extractGo : Nat → Nat → Str → Str × List Str
  | 0, _, s => (s, [])
  | _ + 1, _, [] => ([], [])
  | fuel + 1, counter, c :: cs =>
    match matchFence (c :: cs) with
    | some (inner, rest) =>
      let r := extractGo fuel (counter + 1) rest
      (placeholderStr counter ++ r.1, stripChars inner :: r.2)
    | none =>
      let r := extractGo fuel counter cs
      (c :: r.1, r.2)

/-- Source `_extract_mermaid_blocks` (lines 244-266). -/
def extract_mermaid_blocks (text : Str) : Str × List Str :=
  extractGo text.length 0 text

/-- Worker for `_restore_mermaid_blocks`: for each block index `i` in order,
first replace every paragraph-wrapped placeholder occurrence, then every bare
occurrence (source lines 279-285). -/
def restoreGo : Nat → List Str → Str → Str
  | _, [], h => h
  | i, b :: bs, h =>
    restoreGo (i + 1) bs
      (replaceAll (placeholderStr i) (mermaidDiv b)
        (replaceAll (pWrap (placeholderStr i)) (mermaidDiv b) h))

/-- Source `_restore_mermaid_blocks` (lines 268-287). -/
def restore_mermaid_blocks (html : Str) (blocks : List Str) : Str :=
  restoreGo 0 blocks html

/-- The anchor map `self.doc_uuid_to_anchor`, modelled as an association list
with Python dict semantics: lookup finds the unique binding of a key, and
insertion overwrites an existing binding in place. -/
abbrev AMap := List (Str × Str)

/-- Python `dict.get`. -/
def lookupD : AMap → Str → Option Str
  | [], _ => none
  | (k, v) :: rest, key => if k = key then some v else lookupD rest key

/-- Python `dict[key] = val`: overwrite in place, or append a new binding. -/
def insertD : AMap → Str → Str → AMap
  | [], key, v => [(key, v)]
  | (k, w) :: rest, key, v =>
    if k = key then (k, v) :: rest else (k, w) :: insertD rest key v

/-- Source line 313: the hyperlink emitted for a resolvable mention. -/
def mentionLink (anchor name : Str) : Str :=
  chars "<a href=\"#" ++ anchor ++ chars "\" class=\"mention-link\" title=\"Jump to: "
    ++ name ++ chars "\">" ++ name ++ chars "</a>"

/-- Source line 316: the non-interactive span emitted for an unresolvable
mention. -/
def mentionSpan (name : Str) : Str :=
  chars "<span class=\"mention-link-missing\" title=\"Document not in compilation: "
    ++ name ++ chars "\">" ++ name ++ chars "</span>"

/-- One attempt of the mention regex
`@<a href="mention://[^/]+/document/([^"]+)">([^<]+)</a>` at the current
position.  Each greedy character class is followed by a literal containing a
character the class excludes, so backtracking is vacuous and the attempt
resolves deterministically: each class consumes its maximal run and the
following literal must match exactly. -/
def parseMention (s : Str) : Option (Str × Str × Str) :=
  if startsWith (chars "@<a href=\"mention://") s then
    let t := s.drop 20
    let team := t.takeWhile (fun c => c != '/')
    if team.isEmpty then none else
    if startsWith (chars "/document/") (t.drop team.length) then
      let t3 := (t.drop team.length).drop 10
      let docid := t3.takeWhile (fun c => c != '\"')
      if docid.isEmpty then none else
      if startsWith (chars "\">") (t3.drop docid.length) then
        let t5 := (t3.drop docid.length).drop 2
        let nm := t5.takeWhile (fun c => c != '<')
        if nm.isEmpty then none else
        if startsWith (chars "</a>") (t5.drop nm.length) then
          some (docid, nm, (t5.drop nm.length).drop 4)
        else none
      else none
    else none
  else none

/-- The replacement computed by `replace_mention` (source lines 305-316):
a hyperlink when the anchor map holds a truthy (nonempty) anchor for the
document id, otherwise a non-interactive span. -/
def mentionRepl (anchors : AMap) (docid nm : Str) : Str :=
  match lookupD anchors docid with
  | some a => if a.isEmpty then mentionSpan nm else mentionLink a nm
  | none => mentionSpan nm

/-- Fuelled worker for `_process_mention_links`: scan left to right, replacing
each match of the mention pattern and continuing after it. -/
def pmGo (anchors : AMap) : Nat → Str → Str
  | 0, s => s
  | _ + 1, [] => []
  | fuel + 1, c :: cs =>
    match parseMention (c :: cs) with
    | some (docid, nm, rest) => mentionRepl anchors docid nm ++ pmGo anchors fuel rest
    | none => c :: pmGo anchors fuel cs

/-- Source `_process_mention_links` (lines 289-318), with the anchor map taken
as an explicit argument in place of `self.doc_uuid_to_anchor`. -/
def process_mention_links (anchors : AMap) (html : Str) : Str :=
  pmGo anchors html.length html

/-- One line of `_normalize_list_indentation` (source lines 224-240). -/
def normLine (line : Str) : Str :=
  if !line.isEmpty
      && (startsWith (chars "* ") (lstripChars line)
          || startsWith (chars "- ") (lstripChars line)) then
    let leading := line.length - (lstripChars line).length
    if leading > 0 then List.replicate (leading * 2) ' ' ++ lstripChars line
    else line
  else line

/-- Source `_normalize_list_indentation` (lines 207-242): split on newlines,
rewrite each line, join with newlines. -/
def normalize_list_indentation (text : Str) : Str :=
  List.intercalate (chars "\n") ((text.splitOn '\n').map normLine)

/-- A NavigationNode of the document tree: the fields `id`, `title` and
`children` may each be absent. -/
inductive NavNode where
  | mk (id : Option Str) (title : Option Str) (children : Option (List NavNode)) : NavNode

/-- Field accessor for `id`. -/
def NavNode.getId : NavNode → Option Str
  | mk i _ _ => i

/-- Field accessor for `title`. -/
def NavNode.getTitle : NavNode → Option Str
  | mk _ t _ => t

/-- Field accessor for `children`. -/
def NavNode.getChildren : NavNode → Option (List NavNode)
  | mk _ _ c => c

/-- Source `traverse_documents_dfs` (lines 170-192): pre-order walk emitting
`(node id, title defaulting to "Untitled", depth)`, recursing into a
(nonempty) child list with depth incremented.  A missing `children` field is
read as the empty list via `node.get('children', [])`. -/
def traverse_documents_dfs : List NavNode → Nat → List (Option Str × Str × Nat)
  | [], _ => []
  | NavNode.mk i t none :: rest, depth =>
    (i, t.getD (chars "Untitled"), depth) :: traverse_documents_dfs rest depth
  | NavNode.mk i t (some cs) :: rest, depth =>
    (i, t.getD (chars "Untitled"), depth) ::
      ((if cs.isEmpty then [] else traverse_documents_dfs cs (depth + 1))
        ++ traverse_documents_dfs rest depth)

/-- Total number of nodes in a forest. -/
def forestSize : List NavNode → Nat
  | [] => 0
  | NavNode.mk _ _ none :: rest => 1 + forestSize rest
  | NavNode.mk _ _ (some cs) :: rest => 1 + forestSize cs + forestSize rest

/-- Modelled from the spec: the pre-order flattening of a forest that pairs
every node with its list of ancestors (nearest first).  This is the spec-side
description of the traversal; the refinement theorem for C3 compares
`traverse_documents_dfs` against it. -/
def specPreorderWithAncestors : List NavNode → List NavNode → List (NavNode × List NavNode)
  | [], _ => []
  | NavNode.mk i t none :: rest, anc =>
    (NavNode.mk i t none, anc) :: specPreorderWithAncestors rest anc
  | NavNode.mk i t (some cs) :: rest, anc =>
    (NavNode.mk i t (some cs), anc)
      :: (specPreorderWithAncestors cs (NavNode.mk i t (some cs) :: anc)
          ++ specPreorderWithAncestors rest anc)

/-- A fetched Outline document, with the fields the claims exercise.  Both
fields may be absent from the API payload. -/
structure PyDoc where
  id : Option Str
  text : Option Str
deriving DecidableEq

/-- Worker for `_build_doc_uuid_mapping`: enumerate the retained documents and
bind each truthy (present and nonempty) id to `"doc-" + i` (source
lines 201-205; `if doc_id:` skips both a missing id and an empty one). -/
def buildGo : Nat → AMap → List (PyDoc × Nat) → AMap
  | _, m, [] => m
  | i, m, (doc, _) :: rest =>
    buildGo (i + 1)
      (match doc.id with
       | some did => if did.isEmpty then m else insertD m did (chars "doc-" ++ natRepr i)
       | none => m)
      rest

/-- Source `_build_doc_uuid_mapping` (lines 194-205). -/
def build_doc_uuid_mapping (documents : List (PyDoc × Nat)) : AMap :=
  buildGo 0 [] documents

/-- The anchor token assigned to retained position `i`: `f"doc-{i}"`. -/
def anchorStr (i : Nat) : Str := chars "doc-" ++ natRepr i

/-- One console event of the fetch loop: the per-entry progress line
`f"  [{i}/{n}] {title}"`, or the warning
`f"    Warning: Could not fetch document: {e}"` printed when a fetch fails. -/
inductive LogEvent where
  | progress (i n : Nat) (title : Str) : LogEvent
  | warning (msg : Str) : LogEvent
deriving DecidableEq

/-- Worker for the fetch loop of `compile_collection` (source lines 343-350):
for each traversal entry, print the progress line, attempt the fetch, and
either retain `(doc, depth)` or print a warning and drop the entry.  The
fetch is modelled as a pure function of the document id; `n` is the total
count and `i` the 1-based position. -/
def fetchLoopGo (fetch : Option Str → Except Str PyDoc) (n : Nat) :
    Nat → List (Option Str × Str × Nat) → List (PyDoc × Nat) × List LogEvent
  | _, [] => ([], [])
  | i, (did, title, d) :: rest =>
    let r := fetchLoopGo fetch n (i + 1) rest
    match fetch did with
    | .ok doc => ((doc, d) :: r.1, .progress i n title :: r.2)
    | .error e => (r.1, .progress i n title :: .warning e :: r.2)

/-- The fetch loop of `compile_collection` (source lines 343-350), returning
the retained `(document, depth)` sequence and the console log. -/
def fetch_documents (fetch : Option Str → Except Str PyDoc)
    (docList : List (Option Str × Str × Nat)) : List (PyDoc × Nat) × List LogEvent :=
  fetchLoopGo fetch docList.length 1 docList

/-- The fixed placeholder fragment for documents without content
(source line 604). -/
def noContentStr : Str := chars "<p><em>No content</em></p>"

/-- The per-document rendering pipeline of `_generate_html` (source lines
593-611): read `text` defaulting to empty; if nonempty, normalize list
indentation; if (still) nonempty, extract mermaid blocks; convert (the
markdown converter is an external library, taken as a function parameter)
unless the text is empty, in which case the fixed placeholder fragment is
used; restore mermaid blocks if any were extracted; finally process mention
links. -/
def render_document_content (convert : Str → Str) (anchors : AMap)
    (rawText : Option Str) : Str :=
  let text0 := rawText.getD []
  let text1 := if text0.isEmpty then text0 else normalize_list_indentation text0
  let er := if text1.isEmpty then (text1, ([] : List Str)) else extract_mermaid_blocks text1
  let contentHtml := if er.1.isEmpty then noContentStr else convert er.1
  let contentHtml2 := if er.2.isEmpty then contentHtml else restore_mermaid_blocks contentHtml er.2
  process_mention_links anchors contentHtml2

/-- The text form of one mention occurrence, with team id, document id and
display name plugged into the pattern
`@<a href="mention://TEAM/document/DOCID">NAME</a>`. -/
def mentionText (team docid nm : Str) : Str :=
  chars "@<a href=\"mention://" ++ (team ++ (chars "/document/"
    ++ (docid ++ (chars "\">" ++ (nm ++ chars "</a>")))))

/-- Specification-side form of the anchor map built by
`_build_doc_uuid_mapping` when every retained document has a distinct
present, nonempty id: position `i` binds that id to `anchorStr i`. -/
def buildSpec (i : Nat) : List (PyDoc × Nat) → AMap
  | [] => []
  | (doc, _) :: rest => (doc.id.getD [], anchorStr i) :: buildSpec (i + 1) rest

/-- Numeric value of a list of decimal digit characters; helper used to prove
that distinct positions receive distinct anchor tokens. -/
def decValDigits (l : Str) : Nat := l.foldl (fun a c => 10 * a + (c.toNat - 48)) 0

/-- A document text holding eleven mermaid fences (blocks `D0` .. `D10`). -/
def elevenFences : Str :=
  chars "```mermaid\nD0\n```\n```mermaid\nD1\n```\n```mermaid\nD2\n```\n```mermaid\nD3\n```\n```mermaid\nD4\n```\n```mermaid\nD5\n```\n```mermaid\nD6\n```\n```mermaid\nD7\n```\n```mermaid\nD8\n```\n```mermaid\nD9\n```\n```mermaid\nD10\n```"

/-- A document text holding the literal string `MERMAID_PLACEHOLDER_10`
followed by eleven mermaid fences. -/
def literalPlusElevenFences : Str :=
  chars "MERMAID_PLACEHOLDER_10 " ++ elevenFences

/-! Basic facts about `startsWith` and `strContains`. -/

theorem startsWith_iff (p : Str) : ∀ s : Str, startsWith p s = true ↔ ∃ t, s = p ++ t := by
  induction p with
  | nil => intro s; simp [startsWith]
  | cons a ps ih =>
    intro s
    cases s with
    | nil => simp [startsWith]
    | cons c cs =>
      simp only [startsWith, Bool.and_eq_true, beq_iff_eq, List.cons_append]
      constructor
      · rintro ⟨rfl, h⟩
        obtain ⟨t, rfl⟩ := (ih cs).1 h
        exact ⟨t, rfl⟩
      · rintro ⟨t, ht⟩
        injection ht with h1 h2
        exact ⟨h1.symm, (ih cs).2 ⟨t, h2⟩⟩

theorem startsWith_append_self (p t : Str) : startsWith p (p ++ t) = true :=
  (startsWith_iff p (p ++ t)).2 ⟨t, rfl⟩

theorem startsWith_refl (p : Str) : startsWith p p = true := by
  have := startsWith_append_self p []
  simpa using this

theorem startsWith_length_le {p s : Str} (h : startsWith p s = true) :
    p.length ≤ s.length := by
  obtain ⟨t, rfl⟩ := (startsWith_iff p s).1 h
  simp

theorem startsWith_take (l : Str) (n : Nat) : startsWith (l.take n) l = true :=
  (startsWith_iff (l.take n) l).2 ⟨l.drop n, (List.take_append_drop n l).symm⟩

theorem startsWith_append_both (a b c : Str) :
    startsWith (a ++ b) (a ++ c) = startsWith b c := by
  induction a with
  | nil => rfl
  | cons x xs ih => simp [startsWith, ih]

theorem startsWith_mono {a b s : Str} (h : startsWith (a ++ b) s = true) :
    startsWith a s = true := by
  obtain ⟨t, rfl⟩ := (startsWith_iff (a ++ b) s).1 h
  exact (startsWith_iff a (a ++ b ++ t)).2 ⟨b ++ t, by simp⟩

theorem startsWith_of_append_of_le {p x y : Str} (h : startsWith p (x ++ y) = true)
    (hl : p.length ≤ x.length) : startsWith p x = true := by
  obtain ⟨t, ht⟩ := (startsWith_iff p (x ++ y)).1 h
  have hx : x = p ++ x.drop p.length := by
    have h1 : (x ++ y).take p.length = x.take p.length :=
      List.take_append_of_le_length hl
    have h2 : (p ++ t).take p.length = p := by
      simp [List.take_append_of_le_length (Nat.le_refl p.length)]
    have h3 : x.take p.length = p := by rw [← h1, ht, h2]
    conv_lhs => rw [← List.take_append_drop p.length x]
    rw [h3]
  exact (startsWith_iff p x).2 ⟨x.drop p.length, hx⟩

theorem startsWith_append_split {p x y : Str} (h : startsWith p (x ++ y) = true)
    (hl : x.length < p.length) :
    p.take x.length = x ∧ startsWith (p.drop x.length) y = true := by
  obtain ⟨t, ht⟩ := (startsWith_iff p (x ++ y)).1 h
  have hsplit : x ++ y = p.take x.length ++ (p.drop x.length ++ t) := by
    rw [← List.append_assoc, List.take_append_drop, ht]
  have hlen : x.length = (p.take x.length).length := by
    simp [Nat.le_of_lt hl]
  obtain ⟨hx, hy⟩ := List.append_inj hsplit hlen
  exact ⟨hx.symm, (startsWith_iff (p.drop x.length) y).2 ⟨t, hy⟩⟩

theorem head_eq_of_startsWith {c : Char} {p y : Str}
    (h : startsWith (c :: p) y = true) : y.head? = some c := by
  cases y with
  | nil => simp [startsWith] at h
  | cons d ds =>
    simp only [startsWith, Bool.and_eq_true, beq_iff_eq] at h
    simp [h.1]

theorem strContains_iff (pat : Str) : ∀ s : Str,
    strContains s pat = true ↔ ∃ a b, s = a ++ pat ++ b := by
  intro s
  induction s with
  | nil =>
    simp only [strContains, List.isEmpty_iff]
    constructor
    · rintro rfl; exact ⟨[], [], rfl⟩
    · rintro ⟨a, b, hab⟩
      rcases List.append_eq_nil.1 hab.symm with ⟨h1, h2⟩
      exact (List.append_eq_nil.1 h1).2
  | cons c cs ih =>
    simp only [strContains, Bool.or_eq_true]
    constructor
    · rintro (h | h)
      · obtain ⟨t, ht⟩ := (startsWith_iff pat (c :: cs)).1 h
        exact ⟨[], t, by simp [ht]⟩
      · obtain ⟨a, b, hab⟩ := ih.1 h
        exact ⟨c :: a, b, by simp [hab]⟩
    · rintro ⟨a, b, hab⟩
      cases a with
      | nil =>
        exact Or.inl ((startsWith_iff pat (c :: cs)).2 ⟨b, by simpa using hab⟩)
      | cons x xs =>
        simp only [List.cons_append] at hab
        injection hab with h1 h2
        exact Or.inr (ih.2 ⟨xs, b, h2⟩)

theorem strContains_of_startsWith_drop {s pat : Str} {i : Nat}
    (h : startsWith pat (s.drop i) = true) : strContains s pat = true := by
  obtain ⟨t, ht⟩ := (startsWith_iff pat (s.drop i)).1 h
  exact (strContains_iff pat s).2 ⟨s.take i, t, by
    conv_lhs => rw [← List.take_append_drop i s]
    rw [ht, List.append_assoc]⟩

theorem strContains_extend_false {s pat ext : Str}
    (h : strContains s pat = false) : strContains s (pat ++ ext) = false := by
  cases hc : strContains s (pat ++ ext) with
  | false => rfl
  | true =>
    obtain ⟨a, b, hab⟩ := (strContains_iff (pat ++ ext) s).1 hc
    have : strContains s pat = true :=
      (strContains_iff pat s).2 ⟨a, ext ++ b, by simp [hab]⟩
    rw [h] at this
    exact absurd this (by simp)

theorem strContains_pWrap_false {s p : Str}
    (h : strContains s p = false) : strContains s (pWrap p) = false := by
  cases hc : strContains s (pWrap p) with
  | false => rfl
  | true =>
    obtain ⟨a, b, hab⟩ := (strContains_iff (pWrap p) s).1 hc
    have : strContains s p = true := by
      refine (strContains_iff p s).2 ⟨a ++ chars "<p>", chars "</p>" ++ b, ?_⟩
      simp only [pWrap] at hab
      simp [hab]
    rw [h] at this
    exact absurd this (by simp)

/-! Facts about `replaceAll`. -/

theorem replaceAllGo_nil (pat rep : Str) (f : Nat) : replaceAllGo pat rep f [] = [] := by
  cases f <;> rfl

theorem replaceAllGo_fuel {pat : Str} (hp : pat ≠ []) (rep : Str) :
    ∀ (f g : Nat) (s : Str), s.length ≤ f → s.length ≤ g →
      replaceAllGo pat rep f s = replaceAllGo pat rep g s := by
  intro f
  induction f with
  | zero =>
    intro g s hf _
    have : s = [] := List.length_eq_zero.1 (Nat.le_zero.1 hf)
    subst this
    simp [replaceAllGo_nil]
  | succ f ih =>
    intro g s hf hg
    cases s with
    | nil => simp [replaceAllGo_nil]
    | cons c cs =>
      cases g with
      | zero => simp at hg
      | succ g =>
        simp only [replaceAllGo]
        by_cases hsw : startsWith pat (c :: cs) = true
        · rw [hsw]
          simp only [if_true]
          have hlp : 1 ≤ pat.length := by
            cases pat with
            | nil => exact absurd rfl hp
            | cons _ _ => simp
          have hd : ((c :: cs).drop pat.length).length ≤ f := by
            simp only [List.length_drop, List.length_cons]
            simp only [List.length_cons] at hf
            omega
          have hd2 : ((c :: cs).drop pat.length).length ≤ g := by
            simp only [List.length_drop, List.length_cons]
            simp only [List.length_cons] at hg
            omega
          rw [ih g _ hd hd2]
        · rw [Bool.not_eq_true] at hsw
          rw [hsw]
          simp only [Bool.false_eq_true, if_false]
          have hc : cs.length ≤ f := by simp only [List.length_cons] at hf; omega
          have hc2 : cs.length ≤ g := by simp only [List.length_cons] at hg; omega
          rw [ih g cs hc hc2]

theorem replaceAllGo_of_not_contains (pat rep : Str) :
    ∀ (f : Nat) (s : Str), strContains s pat = false → replaceAllGo pat rep f s = s := by
  intro f
  induction f with
  | zero => intro s _; rfl
  | succ f ih =>
    intro s hs
    cases s with
    | nil => rfl
    | cons c cs =>
      simp only [strContains, Bool.or_eq_false_iff] at hs
      simp only [replaceAllGo, hs.1, Bool.false_eq_true, if_false]
      rw [ih cs hs.2]

theorem replaceAll_of_not_contains {pat : Str} (rep : Str) {s : Str}
    (h : strContains s pat = false) : replaceAll pat rep s = s :=
  replaceAllGo_of_not_contains pat rep s.length s h

theorem replaceAll_append_first {pat : Str} (hp : pat ≠ []) (rep : Str) :
    ∀ (pre suf : Str),
      (∀ i, i < pre.length → startsWith pat ((pre ++ (pat ++ suf)).drop i) = false) →
      replaceAll pat rep (pre ++ (pat ++ suf)) = pre ++ (rep ++ replaceAll pat rep suf) := by
  intro pre
  induction pre with
  | nil =>
    intro suf _
    simp only [List.nil_append]
    cases hpat : pat with
    | nil => exact absurd hpat hp
    | cons p ps =>
      rw [← hpat]
      show replaceAllGo pat rep (pat ++ suf).length (pat ++ suf) = rep ++ replaceAll pat rep suf
      have hlen : (pat ++ suf).length = (ps ++ suf).length + 1 := by
        simp [hpat]
      rw [hlen]
      have hcons : pat ++ suf = p :: (ps ++ suf) := by simp [hpat]
      rw [hcons]
      simp only [replaceAllGo]
      have hsw : startsWith pat (p :: (ps ++ suf)) = true := by
        rw [← hcons]
        exact startsWith_append_self pat suf
      rw [hsw]
      simp only [if_true]
      have hdrop : (p :: (ps ++ suf)).drop pat.length = suf := by
        rw [← hcons]
        exact List.drop_left pat suf
      rw [hdrop]
      have : replaceAllGo pat rep (ps ++ suf).length suf = replaceAll pat rep suf := by
        apply replaceAllGo_fuel hp
        · simp
        · exact Nat.le_refl _
      rw [this]
  | cons c pre ih =>
    intro suf h
    have h0 : startsWith pat (c :: (pre ++ (pat ++ suf))) = false := by
      have := h 0 (by simp)
      simpa using this
    show replaceAllGo pat rep (c :: (pre ++ (pat ++ suf))).length (c :: (pre ++ (pat ++ suf)))
        = (c :: pre) ++ (rep ++ replaceAll pat rep suf)
    rw [List.length_cons]
    simp only [replaceAllGo, h0, Bool.false_eq_true, if_false]
    have : replaceAllGo pat rep (pre ++ (pat ++ suf)).length (pre ++ (pat ++ suf))
        = replaceAll pat rep (pre ++ (pat ++ suf)) := rfl
    rw [this, ih suf ?_]
    · simp
    · intro i hi
      have := h (i + 1) (by simp; omega)
      simpa using this

/-! Occurrence analysis for the placeholder marker. -/

theorem markerStr_length : markerStr.length = 20 := by decide

theorem marker_border_free :
    ∀ j, j < 20 → 0 < j → startsWith (markerStr.drop j) markerStr = false := by decide

theorem markerStr_cons : markerStr = 'M' :: chars "ERMAID_PLACEHOLDER_" := by decide

theorem natRepr_lt10 : ∀ n, n < 10 → natRepr n = [Nat.digitChar n] := by decide

theorem digitChar_inj10 : ∀ j, j < 10 → ∀ k, k < 10 → j ≠ k →
    Nat.digitChar j ≠ Nat.digitChar k := by decide

theorem digitChar_ne_M : ∀ n, n < 10 → Nat.digitChar n ≠ 'M' := by decide

theorem placeholderStr_eq (n : Nat) : placeholderStr n = markerStr ++ natRepr n := rfl

theorem occ_of_decomp {s pat a b : Str} (hab : s = a ++ pat ++ b) :
    startsWith pat (s.drop a.length) = true := by
  rw [hab, List.append_assoc, List.drop_left]
  exact startsWith_append_self pat b

theorem marker_no_occ_before (pre tail ext : Str)
    (hm : strContains pre markerStr = false) :
    ∀ i, i < pre.length →
      startsWith (markerStr ++ ext) ((pre ++ (markerStr ++ tail)).drop i) = false := by
  intro i hi
  cases hsw : startsWith (markerStr ++ ext) ((pre ++ (markerStr ++ tail)).drop i) with
  | false => rfl
  | true =>
    exfalso
    have h1 : startsWith markerStr ((pre ++ (markerStr ++ tail)).drop i) = true :=
      startsWith_mono hsw
    have hdrop : (pre ++ (markerStr ++ tail)).drop i = pre.drop i ++ (markerStr ++ tail) :=
      List.drop_append_of_le_length (Nat.le_of_lt hi)
    rw [hdrop] at h1
    have hxlen : (pre.drop i).length = pre.length - i := List.length_drop i pre
    by_cases hle : markerStr.length ≤ (pre.drop i).length
    · have h2 := startsWith_of_append_of_le h1 hle
      have h3 := strContains_of_startsWith_drop h2
      rw [hm] at h3
      exact absurd h3 (by simp)
    · obtain ⟨htake, hrest⟩ := startsWith_append_split h1 (by omega)
      have h3 : startsWith (markerStr.drop (pre.drop i).length) markerStr = true :=
        startsWith_of_append_of_le hrest (by simp)
      have h4 := marker_border_free (pre.drop i).length
        (by rw [markerStr_length] at hle; omega) (by rw [hxlen]; omega)
      rw [h4] at h3
      exact absurd h3 (by simp)

theorem marker_no_occ_mid (d : Char) (suf : Str) (hd : d ≠ 'M')
    (hm2 : strContains suf markerStr = false) :
    ∀ j, 0 < j → startsWith markerStr ((markerStr ++ (d :: suf)).drop j) = false := by
  intro j hj
  cases hsw : startsWith markerStr ((markerStr ++ (d :: suf)).drop j) with
  | false => rfl
  | true =>
    exfalso
    by_cases hj20 : j < markerStr.length
    · have hdrop : (markerStr ++ (d :: suf)).drop j = markerStr.drop j ++ (d :: suf) :=
        List.drop_append_of_le_length (Nat.le_of_lt hj20)
      rw [hdrop] at hsw
      have hxlen : (markerStr.drop j).length < markerStr.length := by
        simp only [List.length_drop]
        omega
      obtain ⟨htake, _⟩ := startsWith_append_split hsw hxlen
      have hpref : startsWith (markerStr.drop j) markerStr = true := by
        conv_lhs => rw [← htake]
        exact startsWith_take _ _
      have := marker_border_free j (by rw [markerStr_length] at hj20; omega) hj
      rw [this] at hpref
      exact absurd hpref (by simp)
    · have hdrop : (markerStr ++ (d :: suf)).drop j = (d :: suf).drop (j - markerStr.length) := by
        rw [List.drop_append_eq_append_drop, List.drop_eq_nil_of_le (by omega), List.nil_append]
      rw [hdrop] at hsw
      rcases Nat.eq_zero_or_pos (j - markerStr.length) with hz | hpos
      · rw [hz, List.drop_zero, markerStr_cons] at hsw
        have := head_eq_of_startsWith hsw
        simp only [List.head?_cons, Option.some.injEq] at this
        exact hd this
      · have hstep : (d :: suf).drop (j - markerStr.length)
            = suf.drop (j - markerStr.length - 1) := by
          cases hjj : j - markerStr.length with
          | zero => omega
          | succ m => simp
        rw [hstep] at hsw
        have := strContains_of_startsWith_drop hsw
        rw [hm2] at this
        exact absurd this (by simp)

theorem placeholder_no_occ {j k : Nat} (hj : j < 10) (hk : k < 10) (hjk : j ≠ k)
    (pre suf : Str)
    (hm1 : strContains pre markerStr = false) (hm2 : strContains suf markerStr = false) :
    strContains (pre ++ (placeholderStr k ++ suf)) (placeholderStr j) = false := by
  cases hc : strContains (pre ++ (placeholderStr k ++ suf)) (placeholderStr j) with
  | false => rfl
  | true =>
    exfalso
    obtain ⟨a, b, hab⟩ := (strContains_iff _ _).1 hc
    have hocc := occ_of_decomp hab
    rcases Nat.lt_trichotomy a.length pre.length with hlt | heq | hgt
    · have hform : pre ++ (placeholderStr k ++ suf) = pre ++ (markerStr ++ (natRepr k ++ suf)) := by
        rw [placeholderStr_eq, List.append_assoc]
      rw [hform, placeholderStr_eq] at hocc
      have := marker_no_occ_before pre (natRepr k ++ suf) (natRepr j) hm1 a.length hlt
      rw [this] at hocc
      exact absurd hocc (by simp)
    · rw [heq, List.drop_left] at hocc
      have hform : placeholderStr k ++ suf = markerStr ++ (natRepr k ++ suf) := by
        rw [placeholderStr_eq, List.append_assoc]
      rw [hform, placeholderStr_eq, startsWith_append_both] at hocc
      rw [natRepr_lt10 j hj, natRepr_lt10 k hk, List.singleton_append] at hocc
      have := head_eq_of_startsWith hocc
      simp only [List.head?_cons, Option.some.injEq] at this
      exact digitChar_inj10 j hj k hk hjk this.symm
    · have hdrop : (pre ++ (placeholderStr k ++ suf)).drop a.length
          = (placeholderStr k ++ suf).drop (a.length - pre.length) := by
        rw [List.drop_append_eq_append_drop, List.drop_eq_nil_of_le (by omega), List.nil_append]
      rw [hdrop] at hocc
      rw [placeholderStr_eq] at hocc
      have h1 : startsWith markerStr ((placeholderStr k ++ suf).drop (a.length - pre.length)) = true :=
        startsWith_mono hocc
      have hform : placeholderStr k ++ suf = markerStr ++ (Nat.digitChar k :: suf) := by
        rw [placeholderStr_eq, natRepr_lt10 k hk, List.append_assoc]
        rfl
      rw [hform] at h1
      have := marker_no_occ_mid (Nat.digitChar k) suf (digitChar_ne_M k hk) hm2
        (a.length - pre.length) (by omega)
      rw [this] at h1
      exact absurd h1 (by simp)

theorem strContains_append_no_span_left (x y pat : Str)
    (h1 : strContains x pat = false) (h2 : strContains y pat = false)
    (h3 : ∀ i, i < x.length → startsWith (x.drop i) pat = false) :
    strContains (x ++ y) pat = false := by
  cases hc : strContains (x ++ y) pat with
  | false => rfl
  | true =>
    exfalso
    obtain ⟨a, b, hab⟩ := (strContains_iff _ _).1 hc
    have hocc := occ_of_decomp hab
    by_cases hix : a.length < x.length
    · have hdrop : (x ++ y).drop a.length = x.drop a.length ++ y :=
        List.drop_append_of_le_length (Nat.le_of_lt hix)
      rw [hdrop] at hocc
      by_cases hpl : pat.length ≤ (x.drop a.length).length
      · have h4 := startsWith_of_append_of_le hocc hpl
        have h5 := strContains_of_startsWith_drop h4
        rw [h1] at h5
        exact absurd h5 (by simp)
      · obtain ⟨htake, _⟩ := startsWith_append_split hocc (by omega)
        have h4 : startsWith (x.drop a.length) pat = true := by
          conv_lhs => rw [← htake]
          exact startsWith_take _ _
        rw [h3 a.length hix] at h4
        exact absurd h4 (by simp)
    · have hdrop : (x ++ y).drop a.length = y.drop (a.length - x.length) := by
        rw [List.drop_append_eq_append_drop, List.drop_eq_nil_of_le (by omega), List.nil_append]
      rw [hdrop] at hocc
      have h4 := strContains_of_startsWith_drop hocc
      rw [h2] at h4
      exact absurd h4 (by simp)

theorem strContains_append_no_span_head (x y pat : Str)
    (h1 : strContains x pat = false) (h2 : strContains y pat = false)
    (h3 : ∀ j, 0 < j → j < pat.length → y.head? ≠ some (pat.getD j ' ')) :
    strContains (x ++ y) pat = false := by
  cases hc : strContains (x ++ y) pat with
  | false => rfl
  | true =>
    exfalso
    obtain ⟨a, b, hab⟩ := (strContains_iff _ _).1 hc
    have hocc := occ_of_decomp hab
    by_cases hix : a.length < x.length
    · have hdrop : (x ++ y).drop a.length = x.drop a.length ++ y :=
        List.drop_append_of_le_length (Nat.le_of_lt hix)
      rw [hdrop] at hocc
      by_cases hpl : pat.length ≤ (x.drop a.length).length
      · have h4 := startsWith_of_append_of_le hocc hpl
        have h5 := strContains_of_startsWith_drop h4
        rw [h1] at h5
        exact absurd h5 (by simp)
      · obtain ⟨htake, hrest⟩ := startsWith_append_split hocc (by omega)
        have hj0 : 0 < (x.drop a.length).length := by
          simp only [List.length_drop]
          omega
        have hjlt : (x.drop a.length).length < pat.length := by omega
        rw [List.drop_eq_getElem_cons hjlt] at hrest
        have h5 := head_eq_of_startsWith hrest
        have h6 := h3 (x.drop a.length).length hj0 hjlt
        rw [List.getD_eq_getElem pat ' ' hjlt] at h6
        exact h6 h5
    · have hdrop : (x ++ y).drop a.length = y.drop (a.length - x.length) := by
        rw [List.drop_append_eq_append_drop, List.drop_eq_nil_of_le (by omega), List.nil_append]
      rw [hdrop] at hocc
      have h4 := strContains_of_startsWith_drop hocc
      rw [h2] at h4
      exact absurd h4 (by simp)

theorem marker_getD_facts : ∀ j, j < 20 → 0 < j →
    markerStr.getD j ' ' ≠ '\n' ∧ markerStr.getD j ' ' ≠ '<' := by decide

theorem divOpen_no_marker : strContains divOpenStr markerStr = false := by decide

theorem divOpen_no_border : ∀ i, i < 22 → startsWith (divOpenStr.drop i) markerStr = false := by
  decide

theorem divClose_no_marker : strContains divCloseStr markerStr = false := by decide

theorem divClose_no_border : ∀ i, i < 7 → startsWith (divCloseStr.drop i) markerStr = false := by
  decide

theorem divOpenStr_length : divOpenStr.length = 22 := by decide

theorem divCloseStr_length : divCloseStr.length = 7 := by decide

theorem placeholderStr_ne_nil (n : Nat) : placeholderStr n ≠ [] := by
  rw [placeholderStr_eq, markerStr_cons]
  simp

theorem marker_not_in_div (pre suf bk : Str)
    (h1 : strContains pre markerStr = false) (h2 : strContains suf markerStr = false)
    (hb : strContains bk markerStr = false) :
    strContains (pre ++ (mermaidDiv bk ++ suf)) markerStr = false := by
  have s1 : strContains (divCloseStr ++ suf) markerStr = false := by
    apply strContains_append_no_span_left _ _ _ divClose_no_marker h2
    intro i hi
    exact divClose_no_border i (by rw [divCloseStr_length] at hi; exact hi)
  have s2 : strContains (bk ++ (divCloseStr ++ suf)) markerStr = false := by
    apply strContains_append_no_span_head _ _ _ hb s1
    intro j hj0 hj
    have hhead : (divCloseStr ++ suf).head? = some '\n' := by
      rw [show divCloseStr = '\n' :: chars "</div>" from by decide]
      simp
    rw [hhead]
    simp only [ne_eq, Option.some.injEq]
    intro hcontra
    exact (marker_getD_facts j (by rw [markerStr_length] at hj; exact hj) hj0).1 hcontra.symm
  have s3 : strContains (divOpenStr ++ (bk ++ (divCloseStr ++ suf))) markerStr = false := by
    apply strContains_append_no_span_left _ _ _ divOpen_no_marker s2
    intro i hi
    exact divOpen_no_border i (by rw [divOpenStr_length] at hi; exact hi)
  have s4 : strContains (pre ++ (divOpenStr ++ (bk ++ (divCloseStr ++ suf)))) markerStr = false := by
    apply strContains_append_no_span_head _ _ _ h1 s3
    intro j hj0 hj
    have hhead : (divOpenStr ++ (bk ++ (divCloseStr ++ suf))).head? = some '<' := by
      rw [show divOpenStr = '<' :: chars "div class=\"mermaid\">\n" from by decide]
      simp
    rw [hhead]
    simp only [ne_eq, Option.some.injEq]
    intro hcontra
    exact (marker_getD_facts j (by rw [markerStr_length] at hj; exact hj) hj0).2 hcontra.symm
  have hassoc : pre ++ (mermaidDiv bk ++ suf)
      = pre ++ (divOpenStr ++ (bk ++ (divCloseStr ++ suf))) := by
    simp [mermaidDiv, List.append_assoc]
  rw [hassoc]
  exact s4

theorem restoreGo_id (h : Str) (hm : strContains h markerStr = false) :
    ∀ (bs : List Str) (j : Nat), restoreGo j bs h = h := by
  intro bs
  induction bs with
  | nil => intro j; rfl
  | cons b rest ih =>
    intro j
    have hplj : strContains h (placeholderStr j) = false := by
      rw [placeholderStr_eq]
      exact strContains_extend_false hm
    have hpwj : strContains h (pWrap (placeholderStr j)) = false := strContains_pWrap_false hplj
    simp only [restoreGo]
    rw [replaceAll_of_not_contains _ hpwj, replaceAll_of_not_contains _ hplj]
    exact ih (j + 1)

theorem restoreGo_main : ∀ (bs : List Str) (j k : Nat) (pre suf : Str)
    (hjk : j ≤ k) (hkb : k - j < bs.length), j + bs.length ≤ 10 →
    (∀ b ∈ bs, strContains b markerStr = false) →
    strContains pre markerStr = false → strContains suf markerStr = false →
    strContains (pre ++ (placeholderStr k ++ suf)) (pWrap (placeholderStr k)) = false →
    restoreGo j bs (pre ++ (placeholderStr k ++ suf))
      = pre ++ (mermaidDiv (bs.get ⟨k - j, hkb⟩) ++ suf) := by
  intro bs
  induction bs with
  | nil =>
    intro j k pre suf hjk hkb
    simp at hkb
  | cons b rest ih =>
    intro j k pre suf hjk hkb hlen hbs hm1 hm2 hpw
    simp only [List.length_cons] at hlen
    rcases Nat.eq_or_lt_of_le hjk with heq | hlt
    · subst heq
      simp only [restoreGo]
      rw [replaceAll_of_not_contains _ hpw]
      have hfirst : replaceAll (placeholderStr j) (mermaidDiv b) (pre ++ (placeholderStr j ++ suf))
          = pre ++ (mermaidDiv b ++ replaceAll (placeholderStr j) (mermaidDiv b) suf) := by
        apply replaceAll_append_first (placeholderStr_ne_nil j)
        intro i hi
        have hform : pre ++ (placeholderStr j ++ suf)
            = pre ++ (markerStr ++ (natRepr j ++ suf)) := by
          rw [placeholderStr_eq, List.append_assoc]
        rw [hform, placeholderStr_eq]
        exact marker_no_occ_before pre (natRepr j ++ suf) (natRepr j) hm1 i hi
      rw [hfirst]
      have hsufno : strContains suf (placeholderStr j) = false := by
        rw [placeholderStr_eq]
        exact strContains_extend_false hm2
      rw [replaceAll_of_not_contains _ hsufno]
      have hdivfree := marker_not_in_div pre suf b hm1 hm2 (hbs b (by simp))
      rw [restoreGo_id _ hdivfree rest (j + 1)]
      simp
    · have hkbn : k - j < rest.length + 1 := by simpa using hkb
      have hj10 : j < 10 := by omega
      have hk10 : k < 10 := by omega
      have hno : strContains (pre ++ (placeholderStr k ++ suf)) (placeholderStr j) = false :=
        placeholder_no_occ hj10 hk10 (Nat.ne_of_lt hlt) pre suf hm1 hm2
      have hnopw := strContains_pWrap_false hno
      simp only [restoreGo]
      rw [replaceAll_of_not_contains _ hnopw, replaceAll_of_not_contains _ hno]
      have hkb' : k - (j + 1) < rest.length := by
        simp only [List.length_cons] at hkb
        omega
      rw [ih (j + 1) k pre suf (by omega) hkb' (by omega)
        (fun x hx => hbs x (by simp [hx])) hm1 hm2 hpw]
      have hg : (b :: rest).get ⟨k - j, hkb⟩ = rest.get ⟨k - (j + 1), hkb'⟩ := by
        have hidx : k - j = (k - (j + 1)) + 1 := by omega
        simp only [List.get_eq_getElem, hidx, List.getElem_cons_succ]
      rw [hg]

set_option maxRecDepth 1000000 in
/-- C1: evaluation of the extract-then-restore round trip at a document with
eleven mermaid fences (code-bug evidence).  Extraction yields eleven blocks,
the eleventh being `D10`; but the restored HTML holds NO diagram container
with body `D10`: when the loop substitutes block 1, `str.replace` also
rewrites the prefix `MERMAID_PLACEHOLDER_1` inside `MERMAID_PLACEHOLDER_10`,
leaving the first container body followed by a stray `0` and destroying the
placeholder of block 10, which therefore never becomes a diagram container.
So the round trip does not, for each extracted block, yield a container whose
body is the trimmed fence body. -/
theorem restore_loses_eleventh_block :
    (extract_mermaid_blocks elevenFences).2.length = 11
    ∧ (extract_mermaid_blocks elevenFences).2.getD 10 [] = chars "D10"
    ∧ strContains
        (restore_mermaid_blocks (extract_mermaid_blocks elevenFences).1
          (extract_mermaid_blocks elevenFences).2)
        (mermaidDiv (chars "D10")) = false
    ∧ strContains
        (restore_mermaid_blocks (extract_mermaid_blocks elevenFences).1
          (extract_mermaid_blocks elevenFences).2)
        (mermaidDiv (chars "D1") ++ [Char.ofNat 48]) = true :=
  ⟨by decide, by decide, by decide, by decide⟩

set_option maxRecDepth 1000000 in
/-- C9 (counterexample to the claim as stated): the literal occurrence of
`MERMAID_PLACEHOLDER_10` in a document with eleven extracted blocks is NOT
replaced by the 10th diagram container — the container with body `D10` is
absent from the restored HTML altogether, because replacing block 1 corrupts
every occurrence of `MERMAID_PLACEHOLDER_10` first. -/
theorem restore_literal_counterexample :
    (extract_mermaid_blocks literalPlusElevenFences).2.length = 11
    ∧ (extract_mermaid_blocks literalPlusElevenFences).2.getD 10 [] = chars "D10"
    ∧ strContains literalPlusElevenFences (placeholderStr 10) = true
    ∧ strContains
        (restore_mermaid_blocks (extract_mermaid_blocks literalPlusElevenFences).1
          (extract_mermaid_blocks literalPlusElevenFences).2)
        (mermaidDiv (chars "D10")) = false :=
  ⟨by decide, by decide, by decide, by decide⟩

/-- C9 (amended): restoration substitutes EVERY occurrence of a placeholder
string in the converted HTML, not only the one produced by extraction.  For a
block index `k` at most 9 (so that no smaller index yields a placeholder that
is a prefix of placeholder `k`), at most ten blocks, and an arbitrary
occurrence of `MERMAID_PLACEHOLDER_k` between marker-free context `pre`/`suf`
that is not paragraph-wrapped, the occurrence is replaced by the k-th diagram
container — so the extract-then-restore round trip is not faithful on
documents whose own text already holds a placeholder literal. -/
theorem restore_replaces_every_occurrence (bs : List Str) (k : Nat) (pre suf : Str)
    (hkb : k < bs.length) (hlen : bs.length ≤ 10)
    (hbs : ∀ b ∈ bs, strContains b markerStr = false)
    (hm1 : strContains pre markerStr = false) (hm2 : strContains suf markerStr = false)
    (hpw : strContains (pre ++ (placeholderStr k ++ suf)) (pWrap (placeholderStr k)) = false) :
    restore_mermaid_blocks (pre ++ (placeholderStr k ++ suf)) bs
      = pre ++ (mermaidDiv (bs.get ⟨k, hkb⟩) ++ suf) := by
  have hkb0 : k - 0 < bs.length := by simpa using hkb
  have h := restoreGo_main bs 0 k pre suf (Nat.zero_le k) hkb0 (by simpa using hlen)
    hbs hm1 hm2 hpw
  have hg : bs.get ⟨k - 0, hkb0⟩ = bs.get ⟨k, hkb⟩ := by
    simp only [List.get_eq_getElem]
    congr 1
  rw [hg] at h
  exact h

/-- Witness for C9 (amended) at a concrete input: a stray occurrence of
`MERMAID_PLACEHOLDER_0` inside running text is turned into the first diagram
container. -/
theorem restore_replaces_every_occurrence_witness :
    restore_mermaid_blocks (chars "x MERMAID_PLACEHOLDER_0 y") [chars "A0", chars "A1"]
      = chars "x " ++ (mermaidDiv (chars "A0") ++ chars " y") := by
  have h := restore_replaces_every_occurrence [chars "A0", chars "A1"] 0
    (chars "x ") (chars " y") (by decide) (by decide) (by decide) (by decide)
    (by decide) (by decide)
  have e1 : chars "x " ++ (placeholderStr 0 ++ chars " y")
      = chars "x MERMAID_PLACEHOLDER_0 y" := by decide
  have e2 : ([chars "A0", chars "A1"] : List Str).get ⟨0, by decide⟩ = chars "A0" := by decide
  rw [e1, e2] at h
  exact h

/-! Traversal (C3). -/

theorem forestSize_cons (i : Option Str) (t : Option Str) (copt : Option (List NavNode))
    (rest : List NavNode) :
    forestSize (NavNode.mk i t copt :: rest)
      = 1 + forestSize (copt.getD []) + forestSize rest := by
  cases copt with
  | none => simp [forestSize]
  | some cs => simp [forestSize]

theorem NavNode.getId_mk (i t : Option Str) (c : Option (List NavNode)) :
    (NavNode.mk i t c).getId = i := rfl

theorem NavNode.getTitle_mk (i t : Option Str) (c : Option (List NavNode)) :
    (NavNode.mk i t c).getTitle = t := rfl

theorem specPreorder_shift : ∀ (N : Nat) (nodes anc : List NavNode),
    forestSize nodes ≤ N →
    specPreorderWithAncestors nodes anc
      = (specPreorderWithAncestors nodes []).map (fun p => (p.1, p.2 ++ anc)) := by
  intro N
  induction N with
  | zero =>
    intro nodes anc hn
    cases nodes with
    | nil => simp [specPreorderWithAncestors]
    | cons n rest =>
      exfalso
      cases n with
      | mk i t copt =>
        rw [forestSize_cons] at hn
        omega
  | succ N ih =>
    intro nodes anc hn
    cases nodes with
    | nil => simp [specPreorderWithAncestors]
    | cons n rest =>
      cases n with
      | mk i t copt =>
        rw [forestSize_cons] at hn
        cases copt with
        | none =>
          simp only [specPreorderWithAncestors, List.map_cons, List.nil_append]
          rw [ih rest anc (by simp only [Option.getD, forestSize] at hn; omega)]
        | some cs =>
          simp only [specPreorderWithAncestors, List.map_cons, List.map_append,
            List.nil_append]
          have hcs : forestSize cs ≤ N := by
            simp only [Option.getD] at hn
            omega
          have hrest : forestSize rest ≤ N := by
            simp only [Option.getD] at hn
            omega
          rw [ih cs (NavNode.mk i t (some cs) :: anc) hcs,
            ih cs [NavNode.mk i t (some cs)] hcs,
            ih rest anc hrest]
          simp [List.map_map, Function.comp]

theorem traverse_refines : ∀ (N : Nat) (nodes : List NavNode) (d : Nat),
    forestSize nodes ≤ N →
    traverse_documents_dfs nodes d
      = (specPreorderWithAncestors nodes []).map
          (fun p => (p.1.getId, p.1.getTitle.getD (chars "Untitled"), d + p.2.length)) := by
  intro N
  induction N with
  | zero =>
    intro nodes d hn
    cases nodes with
    | nil => simp [traverse_documents_dfs, specPreorderWithAncestors]
    | cons n rest =>
      exfalso
      cases n with
      | mk i t copt =>
        rw [forestSize_cons] at hn
        omega
  | succ N ih =>
    intro nodes d hn
    cases nodes with
    | nil => simp [traverse_documents_dfs, specPreorderWithAncestors]
    | cons n rest =>
      cases n with
      | mk i t copt =>
        rw [forestSize_cons] at hn
        cases copt with
        | none =>
          simp only [traverse_documents_dfs, specPreorderWithAncestors, List.map_cons,
            NavNode.getId_mk, NavNode.getTitle_mk, List.length_nil, Nat.add_zero]
          rw [ih rest d (by simp only [Option.getD, forestSize] at hn; omega)]
        | some cs =>
          have hcs : forestSize cs ≤ N := by simp only [Option.getD] at hn; omega
          have hrest : forestSize rest ≤ N := by simp only [Option.getD] at hn; omega
          simp only [traverse_documents_dfs, specPreorderWithAncestors, List.map_cons,
            List.map_append, NavNode.getId_mk, NavNode.getTitle_mk, List.length_nil,
            Nat.add_zero]
          rw [ih rest d hrest]
          cases hcse : cs with
          | nil =>
            subst hcse
            simp [specPreorderWithAncestors]
          | cons c0 cs0 =>
            rw [← hcse]
            have hne : cs.isEmpty = false := by rw [hcse]; rfl
            rw [hne]
            simp only [Bool.false_eq_true, if_false]
            rw [ih cs (d + 1) hcs,
              specPreorder_shift N cs [NavNode.mk i t (some cs)] hcs, List.map_map]
            have hfg : ((fun p : NavNode × List NavNode =>
                  (p.1.getId, p.1.getTitle.getD (chars "Untitled"), d + p.2.length)) ∘
                (fun p : NavNode × List NavNode => (p.1, p.2 ++ [NavNode.mk i t (some cs)])))
                = (fun p : NavNode × List NavNode =>
                  (p.1.getId, p.1.getTitle.getD (chars "Untitled"), d + 1 + p.2.length)) := by
              funext p
              simp only [Function.comp_apply, List.length_append, List.length_cons,
                List.length_nil, Prod.mk.injEq, true_and]
              omega
            rw [hfg]

theorem traverse_length : ∀ (N : Nat) (nodes : List NavNode) (d : Nat),
    forestSize nodes ≤ N →
    (traverse_documents_dfs nodes d).length = forestSize nodes := by
  intro N
  induction N with
  | zero =>
    intro nodes d hn
    cases nodes with
    | nil => simp [traverse_documents_dfs, forestSize]
    | cons n rest =>
      exfalso
      cases n with
      | mk i t copt =>
        rw [forestSize_cons] at hn
        omega
  | succ N ih =>
    intro nodes d hn
    cases nodes with
    | nil => simp [traverse_documents_dfs, forestSize]
    | cons n rest =>
      cases n with
      | mk i t copt =>
        rw [forestSize_cons] at hn
        cases copt with
        | none =>
          simp only [traverse_documents_dfs, List.length_cons, forestSize]
          rw [ih rest d (by simp only [Option.getD, forestSize] at hn; omega)]
          simp only [Option.getD, forestSize] at hn ⊢
          omega
        | some cs =>
          have hcs : forestSize cs ≤ N := by simp only [Option.getD] at hn; omega
          have hrest : forestSize rest ≤ N := by simp only [Option.getD] at hn; omega
          simp only [traverse_documents_dfs, List.length_cons, List.length_append, forestSize]
          rw [ih rest d hrest]
          cases hcse : cs with
          | nil =>
            subst hcse
            simp only [List.isEmpty_nil, if_true, List.length_nil, forestSize]
            omega
          | cons c0 cs0 =>
            rw [← hcse]
            have hne : cs.isEmpty = false := by rw [hcse]; rfl
            rw [hne]
            simp only [Bool.false_eq_true, if_false]
            rw [ih cs (d + 1) hcs]
            omega

/-- C3: traverse is the pre-order depth-first flattening.  The traversal of a
forest at depth `d` is exactly the map over the spec-side pre-order pairing
each node with its ancestor list, emitting the node id, the title defaulting
to "Untitled" (also when the children field is absent), and `d` plus the
ancestor count — so every node appears before its descendants and after the
complete subtrees of its preceding siblings, and each entry's depth (starting
from `d = 0`) is its ancestor count.  Moreover the output length is the total
node count of the forest. -/
theorem traverse_documents_dfs_spec (nodes : List NavNode) (d : Nat) :
    traverse_documents_dfs nodes d
      = (specPreorderWithAncestors nodes []).map
          (fun p => (p.1.getId, p.1.getTitle.getD (chars "Untitled"), d + p.2.length))
    ∧ (traverse_documents_dfs nodes d).length = forestSize nodes :=
  ⟨traverse_refines (forestSize nodes) nodes d (Nat.le_refl _),
   traverse_length (forestSize nodes) nodes d (Nat.le_refl _)⟩

/-! Indentation normalization (C5, C10). -/

theorem takeWhile_append_stop {p : Char → Bool} :
    ∀ (a : Str) {c : Char} (t : Str), (∀ x ∈ a, p x = true) → p c = false →
      (a ++ c :: t).takeWhile p = a := by
  intro a
  induction a with
  | nil =>
    intro c t _ hc
    simp [List.takeWhile_cons, hc]
  | cons x xs ih =>
    intro c t ha hc
    have hx : p x = true := ha x (by simp)
    simp only [List.cons_append, List.takeWhile_cons, hx, if_true]
    rw [ih t (fun y hy => ha y (by simp [hy])) hc]

theorem lstripChars_length_eq (line : Str) :
    (line.takeWhile isPySpace).length = line.length - (lstripChars line).length := by
  have h := List.takeWhile_append_dropWhile (p := isPySpace) (l := line)
  have hlen : (line.takeWhile isPySpace).length + (line.dropWhile isPySpace).length
      = line.length := by
    have h2 := congrArg List.length h
    rw [List.length_append] at h2
    exact h2
  simp only [lstripChars]
  omega

theorem lstrip_head_not_space {line : Str}
    (hm : startsWith (chars "* ") (lstripChars line) = true
        ∨ startsWith (chars "- ") (lstripChars line) = true) :
    ∃ c tail, lstripChars line = c :: tail ∧ isPySpace c = false := by
  cases hls : lstripChars line with
  | nil =>
    exfalso
    rw [hls] at hm
    rcases hm with hm | hm
    · exact absurd hm (by decide)
    · exact absurd hm (by decide)
  | cons c tail =>
    refine ⟨c, tail, rfl, ?_⟩
    rw [hls] at hm
    rcases hm with hm | hm
    · rw [show chars "* " = '*' :: [' '] from by decide] at hm
      have := head_eq_of_startsWith hm
      simp only [List.head?_cons, Option.some.injEq] at this
      rw [this]
      decide
    · rw [show chars "- " = '-' :: [' '] from by decide] at hm
      have := head_eq_of_startsWith hm
      simp only [List.head?_cons, Option.some.injEq] at this
      rw [this]
      decide

theorem normLine_cond_true {line : Str}
    (hm : startsWith (chars "* ") (lstripChars line) = true
        ∨ startsWith (chars "- ") (lstripChars line) = true) :
    (!line.isEmpty && (startsWith (chars "* ") (lstripChars line)
        || startsWith (chars "- ") (lstripChars line))) = true := by
  have hline : line ≠ [] := by
    intro h
    subst h
    rcases hm with hm | hm
    · exact absurd hm (by decide)
    · exact absurd hm (by decide)
  rw [Bool.and_eq_true, Bool.or_eq_true]
  constructor
  · cases line with
    | nil => exact absurd rfl hline
    | cons c cs => rfl
  · exact hm

theorem normLine_marker_pos {line : Str}
    (hm : startsWith (chars "* ") (lstripChars line) = true
        ∨ startsWith (chars "- ") (lstripChars line) = true)
    (hk : 0 < line.length - (lstripChars line).length) :
    normLine line
      = List.replicate ((line.length - (lstripChars line).length) * 2) ' '
          ++ lstripChars line := by
  simp only [normLine]
  rw [normLine_cond_true hm]
  simp only [if_true]
  rw [if_pos hk]

theorem normLine_zero {line : Str}
    (h0 : line.length - (lstripChars line).length = 0) : normLine line = line := by
  simp only [normLine]
  split
  · split
    · next hgt => exact absurd hgt (by omega)
    · rfl
  · rfl

theorem normLine_not_marker {line : Str}
    (h1 : startsWith (chars "* ") (lstripChars line) = false)
    (h2 : startsWith (chars "- ") (lstripChars line) = false) : normLine line = line := by
  simp only [normLine]
  rw [h1, h2]
  simp

/-- C5: indentation normalization works line by line (split on newlines, map,
rejoin); a line whose content after removing leading whitespace begins with
`* ` or `- ` and that has `k > 0` leading whitespace characters comes out as
that content preceded by `2 k` whitespace characters, so its leading
whitespace count doubles to `2 k`; a qualifying line with no leading
whitespace and every non-list-item line pass through unchanged. -/
theorem normalize_list_indentation_spec :
    (∀ text : Str, normalize_list_indentation text
        = List.intercalate (chars "\n") ((text.splitOn '\n').map normLine))
    ∧ ∀ line : Str,
        ((startsWith (chars "* ") (lstripChars line) = true
            ∨ startsWith (chars "- ") (lstripChars line) = true) →
          0 < line.length - (lstripChars line).length →
          normLine line
              = List.replicate ((line.length - (lstripChars line).length) * 2) ' '
                  ++ lstripChars line
            ∧ ((normLine line).takeWhile isPySpace).length
              = (line.length - (lstripChars line).length) * 2)
        ∧ (line.length - (lstripChars line).length = 0 → normLine line = line)
        ∧ (startsWith (chars "* ") (lstripChars line) = false →
            startsWith (chars "- ") (lstripChars line) = false → normLine line = line) := by
  refine ⟨fun _ => rfl, fun line => ⟨?_, fun h0 => normLine_zero h0,
    fun h1 h2 => normLine_not_marker h1 h2⟩⟩
  intro hm hk
  have heq := normLine_marker_pos hm hk
  refine ⟨heq, ?_⟩
  obtain ⟨c, tail, hls, hcp⟩ := lstrip_head_not_space hm
  rw [heq, hls]
  rw [takeWhile_append_stop _ tail (fun x hx => by
    rw [List.eq_of_mem_replicate hx]; decide) hcp]
  simp

/-- Witness for C5 at the concrete lines of the claim: a two-space-indented
list item gains four spaces, a top-level item is unchanged. -/
theorem normalize_list_indentation_spec_witness :
    normLine (chars "  * child") = chars "    * child"
    ∧ normLine (chars "* top") = chars "* top" := by
  constructor
  · have h := ((normalize_list_indentation_spec.2 (chars "  * child")).1
      (Or.inl (by decide)) (by decide)).1
    exact h.trans (by decide)
  · exact (normalize_list_indentation_spec.2 (chars "* top")).2.1 (by decide)

/-- C10: for a qualifying list line, the rewritten leading whitespace consists
of space characters: the output is exactly `2 n` spaces followed by the
stripped content, where `n` counts the original leading whitespace characters
of any kind (tabs included). -/
theorem normLine_rewrites_with_spaces (line : Str)
    (h : startsWith (chars "* ") (lstripChars line) = true
        ∨ startsWith (chars "- ") (lstripChars line) = true) :
    normLine line
      = List.replicate ((line.takeWhile isPySpace).length * 2) ' '
          ++ line.dropWhile isPySpace := by
  rcases Nat.eq_zero_or_pos (line.length - (lstripChars line).length) with h0 | hpos
  · rw [normLine_zero h0]
    have hlen := lstripChars_length_eq line
    rw [h0] at hlen
    have htw : line.takeWhile isPySpace = [] := List.length_eq_zero.1 hlen
    rw [htw]
    simp only [List.length_nil, Nat.zero_mul, List.replicate_zero, List.nil_append]
    conv_lhs => rw [← List.takeWhile_append_dropWhile (p := isPySpace) (l := line), htw]
    simp
  · rw [normLine_marker_pos h hpos, lstripChars_length_eq line]
    rfl

/-- Witness for C10: a single leading tab becomes exactly two spaces. -/
theorem normLine_rewrites_with_spaces_witness :
    normLine (chars "\t* a") = chars "  * a" := by
  have h := normLine_rewrites_with_spaces (chars "\t* a") (Or.inl (by decide))
  exact h.trans (by decide)

/-! Anchor maps (C4, C8). -/

theorem toDigitsCore_append : ∀ (fuel n : Nat) (ds : List Char),
    Nat.toDigitsCore 10 fuel n ds = Nat.toDigitsCore 10 fuel n [] ++ ds := by
  intro fuel
  induction fuel with
  | zero => intro n ds; simp [Nat.toDigitsCore]
  | succ fuel ih =>
    intro n ds
    simp only [Nat.toDigitsCore]
    by_cases h : n / 10 = 0
    · simp [h]
    · rw [if_neg h, if_neg h]
      rw [ih (n / 10) (Nat.digitChar (n % 10) :: ds), ih (n / 10) [Nat.digitChar (n % 10)]]
      simp

theorem decValDigits_append_digit (xs : Str) (c : Char) :
    decValDigits (xs ++ [c]) = 10 * decValDigits xs + (c.toNat - 48) := by
  simp [decValDigits, List.foldl_append]

theorem digitChar_val : ∀ m, m < 10 → (Nat.digitChar m).toNat - 48 = m := by decide

theorem decVal_toDigitsCore : ∀ (fuel n : Nat), n < 10 ^ fuel →
    decValDigits (Nat.toDigitsCore 10 fuel n []) = n := by
  intro fuel
  induction fuel with
  | zero =>
    intro n hn
    have hn0 : n = 0 := by simpa using hn
    subst hn0
    rfl
  | succ fuel ih =>
    intro n hn
    simp only [Nat.toDigitsCore]
    by_cases h : n / 10 = 0
    · rw [if_pos h]
      have hn10 : n < 10 := by omega
      have hd : decValDigits [Nat.digitChar (n % 10)]
          = (Nat.digitChar (n % 10)).toNat - 48 := by
        simp [decValDigits]
      rw [hd, digitChar_val (n % 10) (by omega)]
      omega
    · rw [if_neg h]
      rw [toDigitsCore_append fuel (n / 10) [Nat.digitChar (n % 10)]]
      rw [decValDigits_append_digit]
      have hdiv : n / 10 < 10 ^ fuel := by
        rw [Nat.pow_succ] at hn
        omega
      rw [ih (n / 10) hdiv, digitChar_val (n % 10) (by omega)]
      omega

theorem natRepr_decVal (n : Nat) : decValDigits (natRepr n) = n := by
  have h1 : n < 10 ^ n := Nat.lt_pow_self (by norm_num) n
  have h2 : (10 : Nat) ^ n ≤ 10 ^ (n + 1) := Nat.pow_le_pow_right (by norm_num) (by omega)
  exact decVal_toDigitsCore (n + 1) n (by omega)

theorem natRepr_inj {a b : Nat} (h : natRepr a = natRepr b) : a = b := by
  have ha := natRepr_decVal a
  have hb := natRepr_decVal b
  rw [h] at ha
  omega

theorem anchorStr_inj : Function.Injective anchorStr := by
  intro a b h
  simp only [anchorStr] at h
  exact natRepr_inj (List.append_cancel_left h)

theorem lookupD_insertD_self : ∀ (m : AMap) (key v : Str),
    lookupD (insertD m key v) key = some v := by
  intro m
  induction m with
  | nil => intro key v; simp [insertD, lookupD]
  | cons p rest ih =>
    intro key v
    obtain ⟨k, w⟩ := p
    simp only [insertD]
    by_cases h : k = key
    · subst h
      simp [lookupD]
    · rw [if_neg h]
      simp only [lookupD]
      rw [if_neg h]
      exact ih key v

theorem lookupD_insertD_ne : ∀ (m : AMap) {key key' : Str} (v : Str), key' ≠ key →
    lookupD (insertD m key' v) key = lookupD m key := by
  intro m
  induction m with
  | nil =>
    intro key key' v h
    simp [insertD, lookupD, h]
  | cons p rest ih =>
    intro key key' v h
    obtain ⟨k, w⟩ := p
    simp only [insertD]
    by_cases hk : k = key'
    · subst hk
      simp only [lookupD]
      rw [if_neg (by intro hc; exact h hc), if_neg (by intro hc; exact h hc)]
    · rw [if_neg hk]
      simp only [lookupD]
      by_cases hk2 : k = key
      · rw [if_pos hk2, if_pos hk2]
      · rw [if_neg hk2, if_neg hk2]
        exact ih v h

theorem lookupD_buildGo_skip : ∀ (docs : List (PyDoc × Nat)) (i : Nat) (m : AMap) {key : Str},
    (∀ p ∈ docs, p.1.id ≠ some key) →
    lookupD (buildGo i m docs) key = lookupD m key := by
  intro docs
  induction docs with
  | nil => intro i m key _; rfl
  | cons e rest ih =>
    intro i m key hno
    obtain ⟨doc, dep⟩ := e
    simp only [buildGo]
    cases hid : doc.id with
    | none => exact ih (i + 1) m (fun p hp => hno p (by simp [hp]))
    | some did =>
      dsimp only
      by_cases hemp : did.isEmpty
      · rw [if_pos hemp]
        exact ih (i + 1) m (fun p hp => hno p (by simp [hp]))
      · rw [if_neg hemp]
        rw [ih (i + 1) _ (fun p hp => hno p (by simp [hp]))]
        apply lookupD_insertD_ne
        intro hc
        subst hc
        exact hno (doc, dep) (by simp) hid

theorem buildGo_last : ∀ (docs : List (PyDoc × Nat)) (i : Nat) (m : AMap) (key : Str)
    (j : Nat) (hj : j < docs.length), key ≠ [] →
    (docs.get ⟨j, hj⟩).1.id = some key →
    (∀ mm (hm : mm < docs.length), j < mm → (docs.get ⟨mm, hm⟩).1.id ≠ some key) →
    lookupD (buildGo i m docs) key = some (chars "doc-" ++ natRepr (i + j)) := by
  intro docs
  induction docs with
  | nil =>
    intro i m key j hj
    simp at hj
  | cons e rest ih =>
    intro i m key j hj hk hjid hlast
    obtain ⟨doc, dep⟩ := e
    cases j with
    | zero =>
      have hid : doc.id = some key := hjid
      have hrest : ∀ p ∈ rest, p.1.id ≠ some key := by
        intro p hp
        obtain ⟨⟨idx, hidx⟩, hget⟩ := List.mem_iff_get.1 hp
        have h2 := hlast (idx + 1) (by simp only [List.length_cons]; omega) (by omega)
        simp only [List.get_eq_getElem, List.getElem_cons_succ] at h2
        have hg2 : rest[idx] = p := by simpa [List.get_eq_getElem] using hget
        rw [hg2] at h2
        exact h2
      simp only [buildGo, hid]
      have hemp : key.isEmpty = false := by
        cases key with
        | nil => exact absurd rfl hk
        | cons c cs => rfl
      rw [hemp]
      simp only [Bool.false_eq_true, if_false]
      rw [lookupD_buildGo_skip rest (i + 1) _ hrest, lookupD_insertD_self]
      rw [Nat.add_zero]
    | succ j0 =>
      have hj0 : j0 < rest.length := by
        simp only [List.length_cons] at hj
        omega
      have hjid' : (rest.get ⟨j0, hj0⟩).1.id = some key := by
        have h2 := hjid
        simp only [List.get_eq_getElem, List.getElem_cons_succ] at h2
        simpa [List.get_eq_getElem] using h2
      have hlast' : ∀ mm (hm : mm < rest.length), j0 < mm →
          (rest.get ⟨mm, hm⟩).1.id ≠ some key := by
        intro mm hm hgt
        have h2 := hlast (mm + 1) (by simp only [List.length_cons]; omega) (by omega)
        simp only [List.get_eq_getElem, List.getElem_cons_succ] at h2
        simpa [List.get_eq_getElem] using h2
      simp only [buildGo]
      rw [ih (i + 1) _ key j0 hj0 hk hjid' hlast',
        show i + 1 + j0 = i + (j0 + 1) from by omega]

theorem insertD_of_fresh : ∀ (m : AMap) {key : Str} (v : Str), (∀ p ∈ m, p.1 ≠ key) →
    insertD m key v = m ++ [(key, v)] := by
  intro m
  induction m with
  | nil => intro key v _; rfl
  | cons p rest ih =>
    intro key v hfresh
    obtain ⟨k, w⟩ := p
    simp only [insertD]
    rw [if_neg (hfresh (k, w) (by simp))]
    rw [ih v (fun q hq => hfresh q (by simp [hq]))]
    simp

theorem buildGo_eq_spec : ∀ (docs : List (PyDoc × Nat)) (i : Nat) (m : AMap),
    (∀ p ∈ docs, ∃ did, p.1.id = some did ∧ did ≠ []) →
    (docs.map (fun p => p.1.id)).Nodup →
    (∀ q ∈ m, ∀ p ∈ docs, p.1.id ≠ some q.1) →
    buildGo i m docs = m ++ buildSpec i docs := by
  intro docs
  induction docs with
  | nil => intro i m _ _ _; simp [buildGo, buildSpec]
  | cons e rest ih =>
    intro i m hall hnd hdisj
    obtain ⟨doc, dep⟩ := e
    obtain ⟨did, hdid, hne⟩ := hall (doc, dep) (by simp)
    have hdid' : doc.id = some did := hdid
    simp only [buildGo, buildSpec, hdid']
    have hemp : did.isEmpty = false := by
      cases did with
      | nil => exact absurd rfl hne
      | cons c cs => rfl
    rw [hemp]
    simp only [Bool.false_eq_true, if_false]
    have hfresh : ∀ p ∈ m, p.1 ≠ did := by
      intro p hp hc
      exact hdisj p hp (doc, dep) (by simp) (by rw [hdid', hc])
    rw [insertD_of_fresh m _ hfresh]
    simp only [List.map_cons, List.nodup_cons] at hnd
    rw [ih (i + 1) (m ++ [(did, chars "doc-" ++ natRepr i)])
      (fun p hp => hall p (by simp [hp])) hnd.2 ?_]
    · simp [anchorStr, Option.getD_some, List.append_assoc, List.singleton_append]
    · intro q hq p hp
      rcases List.mem_append.1 hq with hq | hq
      · exact hdisj q hq p (by simp [hp])
      · simp only [List.mem_singleton] at hq
        subst hq
        dsimp only
        intro hc
        exact hnd.1 (by rw [hdid', ← hc]; exact List.mem_map_of_mem (fun p => p.1.id) hp)

theorem buildSpec_values : ∀ (docs : List (PyDoc × Nat)) (i : Nat),
    (buildSpec i docs).map Prod.snd = (List.range' i docs.length).map anchorStr := by
  intro docs
  induction docs with
  | nil => intro i; rfl
  | cons e rest ih =>
    intro i
    obtain ⟨doc, dep⟩ := e
    simp only [buildSpec, List.map_cons, List.length_cons, List.range'_succ]
    rw [ih (i + 1)]

theorem lookupD_buildSpec : ∀ (docs : List (PyDoc × Nat)) (i idx : Nat)
    (hidx : idx < docs.length),
    (∀ p ∈ docs, ∃ did, p.1.id = some did ∧ did ≠ []) →
    (docs.map (fun p => p.1.id)).Nodup →
    lookupD (buildSpec i docs) ((docs.get ⟨idx, hidx⟩).1.id.getD [])
      = some (anchorStr (i + idx)) := by
  intro docs
  induction docs with
  | nil =>
    intro i idx hidx
    simp at hidx
  | cons e rest ih =>
    intro i idx hidx hall hnd
    obtain ⟨doc, dep⟩ := e
    simp only [List.map_cons, List.nodup_cons] at hnd
    cases idx with
    | zero =>
      simp only [List.get, buildSpec, lookupD]
      simp
    | succ idx0 =>
      have hidx0 : idx0 < rest.length := by
        simp only [List.length_cons] at hidx
        omega
      have hget : (((doc, dep) :: rest).get ⟨idx0 + 1, hidx⟩) = rest.get ⟨idx0, hidx0⟩ := by
        simp [List.get_eq_getElem]
      rw [hget]
      simp only [buildSpec, lookupD]
      obtain ⟨did, hdid, _⟩ := hall (doc, dep) (by simp)
      obtain ⟨did', hdid', _⟩ := hall (rest.get ⟨idx0, hidx0⟩) (by
        exact List.mem_cons_of_mem _ (List.get_mem rest idx0 hidx0))
      have hne2 : doc.id.getD [] ≠ (rest.get ⟨idx0, hidx0⟩).1.id.getD [] := by
        intro hc
        apply hnd.1
        have hdd : did = did' := by
          have h1 : doc.id.getD ([] : Str) = did := by rw [show doc.id = some did from hdid]; rfl
          have h2 : (rest.get ⟨idx0, hidx0⟩).1.id.getD ([] : Str) = did' := by
            rw [hdid']; rfl
          rw [h1, h2] at hc
          exact hc
        rw [show doc.id = some did from hdid, hdd, ← hdid']
        exact List.mem_map_of_mem (fun p => p.1.id) (List.get_mem rest idx0 hidx0)
      rw [if_neg hne2]
      rw [ih (i + 1) idx0 hidx0 (fun p hp => hall p (by simp [hp])) hnd.2]
      rw [show i + 1 + idx0 = i + (idx0 + 1) from by omega]

/-- C8: when the same (nonempty) document identifier occurs at several
retained positions, the anchor map binds it to the anchor of the LAST
retained occurrence: if position `j` carries the identifier and no later
position does, lookup yields `doc-j`, because each dict assignment overwrites
the previous binding. -/
theorem build_anchor_last_occurrence (docs : List (PyDoc × Nat)) (key : Str)
    (hk : key ≠ []) (j : Nat) (hj : j < docs.length)
    (hjid : (docs.get ⟨j, hj⟩).1.id = some key)
    (hlast : ∀ m (hm : m < docs.length), j < m → (docs.get ⟨m, hm⟩).1.id ≠ some key) :
    lookupD (build_doc_uuid_mapping docs) key = some (anchorStr j) := by
  have h := buildGo_last docs 0 [] key j hj hk hjid hlast
  simpa [build_doc_uuid_mapping, anchorStr] using h

/-- Witness for C8: with the identifier `a` retained at positions 0 and 2,
lookup resolves to `doc-2`. -/
theorem build_anchor_last_occurrence_witness :
    lookupD (build_doc_uuid_mapping
        [(⟨some (chars "a"), none⟩, 0), (⟨some (chars "b"), none⟩, 0),
         (⟨some (chars "a"), none⟩, 1)]) (chars "a") = some (anchorStr 2) := by
  apply build_anchor_last_occurrence _ _ (by decide) 2 (by decide) (by decide)
  intro m hm hgt
  exfalso
  simp only [List.length_cons, List.length_nil] at hm
  omega

/-- C4 (amended): when every retained document carries a present, nonempty
identifier and the identifiers are pairwise distinct, the map built by
`_build_doc_uuid_mapping` assigns the document at 0-based position `i` the
anchor `doc-i`; its anchors are exactly `doc-0 .. doc-(n-1)` in order, with
no gaps and no duplicates, covering exactly the retained documents. -/
theorem build_anchor_assignment (docs : List (PyDoc × Nat))
    (hall : ∀ p ∈ docs, ∃ did, p.1.id = some did ∧ did ≠ [])
    (hnd : (docs.map (fun p => p.1.id)).Nodup) :
    (build_doc_uuid_mapping docs).map Prod.snd
        = (List.range docs.length).map anchorStr
    ∧ ((build_doc_uuid_mapping docs).map Prod.snd).Nodup
    ∧ ∀ idx (h : idx < docs.length),
        lookupD (build_doc_uuid_mapping docs) ((docs.get ⟨idx, h⟩).1.id.getD [])
          = some (anchorStr idx) := by
  have hbuild : build_doc_uuid_mapping docs = buildSpec 0 docs := by
    have h := buildGo_eq_spec docs 0 [] hall hnd (by intro q hq; simp at hq)
    simpa [build_doc_uuid_mapping] using h
  have hvals : (build_doc_uuid_mapping docs).map Prod.snd
      = (List.range docs.length).map anchorStr := by
    rw [hbuild, buildSpec_values docs 0, List.range_eq_range']
  refine ⟨hvals, ?_, ?_⟩
  · rw [hvals]
    exact (List.nodup_range docs.length).map anchorStr_inj
  · intro idx h
    rw [hbuild]
    have := lookupD_buildSpec docs 0 idx h hall hnd
    simpa using this

/-- Counterexample for C4 as stated: with the identifier `a` retained twice
(n = 2), the built map holds only the anchor `doc-1`; the anchor `doc-0` is
absent, so the anchors are not `doc-0 .. doc-(n-1)`. -/
theorem build_anchor_duplicate_counterexample :
    (build_doc_uuid_mapping
        [(⟨some (chars "a"), none⟩, 0), (⟨some (chars "a"), none⟩, 0)]).map Prod.snd
      = [anchorStr 1]
    ∧ anchorStr 0 ∉ (build_doc_uuid_mapping
        [(⟨some (chars "a"), none⟩, 0), (⟨some (chars "a"), none⟩, 0)]).map Prod.snd :=
  ⟨by decide, by decide⟩

/-- Witness for C4 (amended) at two documents with distinct ids. -/
theorem build_anchor_assignment_witness :
    (build_doc_uuid_mapping
        [(⟨some (chars "a"), none⟩, 0), (⟨some (chars "b"), none⟩, 1)]).map Prod.snd
      = [chars "doc-0", chars "doc-1"]
    ∧ lookupD (build_doc_uuid_mapping
        [(⟨some (chars "a"), none⟩, 0), (⟨some (chars "b"), none⟩, 1)]) (chars "a")
      = some (chars "doc-0") := by
  have h := build_anchor_assignment
    [(⟨some (chars "a"), none⟩, 0), (⟨some (chars "b"), none⟩, 1)]
    (by
      intro p hp
      simp only [List.mem_cons, List.not_mem_nil, or_false] at hp
      rcases hp with rfl | rfl
      · exact ⟨chars "a", rfl, by decide⟩
      · exact ⟨chars "b", rfl, by decide⟩)
    (by decide)
  constructor
  · exact h.1.trans (by decide)
  · have h3 := h.2.2 0 (by decide)
    rw [show (([(⟨some (chars "a"), none⟩, 0), (⟨some (chars "b"), none⟩, 1)] :
        List (PyDoc × Nat)).get ⟨0, by decide⟩).1.id.getD [] = chars "a" from by decide] at h3
    exact h3.trans (by decide)

/-! Fetch loop (C6). -/

theorem fetchLoopGo_spec : ∀ (docList : List (Option Str × Str × Nat))
    (fetch : Option Str → Except Str PyDoc) (n i : Nat),
    fetchLoopGo fetch n i docList
      = (docList.filterMap (fun e => match fetch e.1 with
          | .ok doc => some (doc, e.2.2)
          | .error _ => none),
        (docList.enumFrom i).flatMap (fun ie =>
          LogEvent.progress ie.1 n ie.2.2.1 ::
            (match fetch ie.2.1 with
             | .ok _ => []
             | .error e => [LogEvent.warning e]))) := by
  intro docList
  induction docList with
  | nil => intro fetch n i; rfl
  | cons e rest ih =>
    intro fetch n i
    obtain ⟨did, title, d⟩ := e
    simp only [fetchLoopGo, List.filterMap_cons, List.enumFrom_cons, List.flatMap_cons]
    rw [ih fetch n (i + 1)]
    cases hf : fetch did with
    | ok doc => simp [hf]
    | error err => simp [hf]

/-- C6: the fetch loop of `compile_collection` is total and per-entry: each
failed fetch contributes a warning to the console log and is dropped, leaving
the retained sequence equal to the traversal sequence with exactly the failed
entries removed, in order (the `filterMap` of the per-entry fetch outcome);
the console log is exactly, per traversal entry in order, the progress line
carrying the entry's 1-based index, the total count and its title, followed
by the warning carrying the error message when that entry's fetch failed.
No entry's outcome influences any other: the fetch is a function of the
entry's own identifier. -/
theorem fetch_documents_spec (fetch : Option Str → Except Str PyDoc)
    (docList : List (Option Str × Str × Nat)) :
    (fetch_documents fetch docList).1
      = docList.filterMap (fun e => match fetch e.1 with
          | .ok doc => some (doc, e.2.2)
          | .error _ => none)
    ∧ (fetch_documents fetch docList).2
      = (docList.enumFrom 1).flatMap (fun ie =>
          LogEvent.progress ie.1 docList.length ie.2.2.1 ::
            (match fetch ie.2.1 with
             | .ok _ => []
             | .error e => [LogEvent.warning e])) := by
  rw [fetch_documents, fetchLoopGo_spec]
  exact ⟨rfl, rfl⟩

/-! Render pipeline (C7). -/

theorem parseMention_not_at {c : Char} (cs : Str) (hc : c ≠ '@') :
    parseMention (c :: cs) = none := by
  have h1 : ('@' == c) = false := beq_eq_false_iff_ne.2 (fun h => hc h.symm)
  have hsw : startsWith (chars "@<a href=\"mention://") (c :: cs) = false := by
    rw [show chars "@<a href=\"mention://" = '@' :: chars "<a href=\"mention://" from by decide]
    simp [startsWith, h1]
  simp [parseMention, hsw]

theorem pmGo_no_at (anchors : AMap) : ∀ (f : Nat) (s : Str), (∀ c ∈ s, c ≠ '@') →
    pmGo anchors f s = s := by
  intro f
  induction f with
  | zero => intro s _; rfl
  | succ f ih =>
    intro s hs
    cases s with
    | nil => rfl
    | cons c cs =>
      simp only [pmGo, parseMention_not_at cs (hs c (by simp))]
      rw [ih cs (fun x hx => hs x (by simp [hx]))]

theorem process_no_at {anchors : AMap} {s : Str} (hs : ∀ c ∈ s, c ≠ '@') :
    process_mention_links anchors s = s := pmGo_no_at anchors s.length s hs

/-- C7: the per-document rendering pipeline is a total function of the raw
text (no stage can signal an error in the model, matching the raise-free
source); for empty or absent rawText it short-circuits to the fixed
placeholder fragment `<p><em>No content</em></p>`, with normalization,
extraction, conversion and restoration all bypassed and the final mention
pass provably leaving the placeholder untouched; for every other input it
returns the HTML fragment produced by the staged pipeline. -/
theorem render_document_content_spec (convert : Str → Str) (anchors : AMap) :
    (∀ rawText, rawText = none ∨ rawText = some [] →
        render_document_content convert anchors rawText = noContentStr)
    ∧ (∀ t : Str, t ≠ [] →
        render_document_content convert anchors (some t)
          = process_mention_links anchors
              (if (extract_mermaid_blocks (normalize_list_indentation t)).2.isEmpty then
                (if (extract_mermaid_blocks (normalize_list_indentation t)).1.isEmpty then
                  noContentStr
                else convert (extract_mermaid_blocks (normalize_list_indentation t)).1)
              else
                restore_mermaid_blocks
                  (if (extract_mermaid_blocks (normalize_list_indentation t)).1.isEmpty then
                    noContentStr
                  else convert (extract_mermaid_blocks (normalize_list_indentation t)).1)
                  (extract_mermaid_blocks (normalize_list_indentation t)).2)) := by
  have hnc : ∀ c ∈ noContentStr, c ≠ '@' := by decide
  constructor
  · rintro rawText (rfl | rfl)
    · exact process_no_at hnc
    · exact process_no_at hnc
  · intro t ht
    have ht' : t.isEmpty = false := by
      cases t with
      | nil => exact absurd rfl ht
      | cons c cs => rfl
    simp only [render_document_content, Option.getD_some, ht', Bool.false_eq_true, if_false]
    by_cases hn : (normalize_list_indentation t).isEmpty
    · have hnil : normalize_list_indentation t = [] := List.isEmpty_iff.1 hn
      rw [hn, hnil]
      simp [extract_mermaid_blocks, extractGo]
    · rw [Bool.not_eq_true] at hn
      rw [hn]
      simp only [Bool.false_eq_true, if_false]

/-- Witness for C7 at absent text and the identity converter. -/
theorem render_document_content_spec_witness :
    render_document_content id [] none = noContentStr :=
  (render_document_content_spec id []).1 none (Or.inl rfl)

/-! Mention resolution (C2). -/

theorem takeWhile_append_of_head_false {p : Char → Bool} :
    ∀ (a b : Str), (∀ x ∈ a, p x = true) → (∀ c, b.head? = some c → p c = false) →
      (a ++ b).takeWhile p = a ∧ (a ++ b).drop a.length = b := by
  intro a
  induction a with
  | nil =>
    intro b _ hb
    refine ⟨?_, by simp⟩
    cases b with
    | nil => rfl
    | cons c bs => simp [List.takeWhile_cons, hb c rfl]
  | cons x xs ih =>
    intro b ha hb
    have hx : p x = true := ha x (by simp)
    obtain ⟨h1, h2⟩ := ih b (fun y hy => ha y (by simp [hy])) hb
    refine ⟨?_, ?_⟩
    · simp only [List.cons_append, List.takeWhile_cons, hx, if_true]
      rw [h1]
    · simp only [List.cons_append, List.length_cons, List.drop_succ_cons]
      exact h2

theorem parseMention_spec (team docid nm post : Str)
    (hteam : team ≠ []) (hteam2 : ∀ c ∈ team, c ≠ '/')
    (hdoc : docid ≠ []) (hdoc2 : ∀ c ∈ docid, c ≠ '\"')
    (hnm : nm ≠ []) (hnm2 : ∀ c ∈ nm, c ≠ '<') :
    parseMention (mentionText team docid nm ++ post) = some (docid, nm, post) := by
  simp only [mentionText, List.append_assoc]
  simp only [parseMention, startsWith_append_self, if_true]
  rw [List.drop_left' (show (chars "@<a href=\"mention://").length = 20 from by decide)]
  obtain ⟨htw1, hdr1⟩ := takeWhile_append_of_head_false (p := fun c => c != '/')
    team (chars "/document/" ++ (docid ++ (chars "\">" ++ (nm ++ (chars "</a>" ++ post)))))
    (fun x hx => by simp [bne_iff_ne]; exact hteam2 x hx)
    (fun c hc => by
      rw [show chars "/document/" = '/' :: chars "document/" from by decide] at hc
      simp only [List.cons_append, List.head?_cons, Option.some.injEq] at hc
      subst hc
      decide)
  rw [htw1]
  have hteamE : team.isEmpty = false := by
    cases team with
    | nil => exact absurd rfl hteam
    | cons c cs => rfl
  rw [hteamE]
  simp only [Bool.false_eq_true, if_false]
  rw [hdr1, startsWith_append_self]
  simp only [if_true]
  rw [List.drop_left' (show (chars "/document/").length = 10 from by decide)]
  obtain ⟨htw2, hdr2⟩ := takeWhile_append_of_head_false (p := fun c => c != '\"')
    docid (chars "\">" ++ (nm ++ (chars "</a>" ++ post)))
    (fun x hx => by simp [bne_iff_ne]; exact hdoc2 x hx)
    (fun c hc => by
      rw [show chars "\">" = '\"' :: ['>'] from by decide] at hc
      simp only [List.cons_append, List.head?_cons, Option.some.injEq] at hc
      subst hc
      decide)
  rw [htw2]
  have hdocE : docid.isEmpty = false := by
    cases docid with
    | nil => exact absurd rfl hdoc
    | cons c cs => rfl
  rw [hdocE]
  simp only [Bool.false_eq_true, if_false]
  rw [hdr2, startsWith_append_self]
  simp only [if_true]
  rw [List.drop_left' (show (chars "\">").length = 2 from by decide)]
  obtain ⟨htw3, hdr3⟩ := takeWhile_append_of_head_false (p := fun c => c != '<')
    nm (chars "</a>" ++ post)
    (fun x hx => by simp [bne_iff_ne]; exact hnm2 x hx)
    (fun c hc => by
      rw [show chars "</a>" = '<' :: chars "/a>" from by decide] at hc
      simp only [List.cons_append, List.head?_cons, Option.some.injEq] at hc
      subst hc
      decide)
  rw [htw3]
  have hnmE : nm.isEmpty = false := by
    cases nm with
    | nil => exact absurd rfl hnm
    | cons c cs => rfl
  rw [hnmE]
  simp only [Bool.false_eq_true, if_false]
  rw [hdr3, startsWith_append_self]
  simp only [if_true]
  rw [List.drop_left' (show (chars "</a>").length = 4 from by decide)]

theorem parseMention_rest_lt : ∀ {s d n r : Str}, parseMention s = some (d, n, r) →
    r.length < s.length := by
  intro s d n r h
  unfold parseMention at h
  by_cases h1 : startsWith (chars "@<a href=\"mention://") s = true
  case neg =>
    rw [if_neg h1] at h
    exact absurd h (by simp)
  rw [if_pos h1] at h
  have hs20 : 20 ≤ s.length := by
    have h2 := startsWith_length_le h1
    rw [show (chars "@<a href=\"mention://").length = 20 from by decide] at h2
    exact h2
  dsimp only at h
  split at h
  · simp at h
  · split at h
    · split at h
      · simp at h
      · split at h
        · split at h
          · simp at h
          · split at h
            · rw [Option.some.injEq, Prod.mk.injEq, Prod.mk.injEq] at h
              obtain ⟨-, -, hr⟩ := h
              rw [← hr]
              simp only [List.length_drop]
              omega
            · simp at h
        · simp at h
    · simp at h

theorem pmGo_fuel (anchors : AMap) : ∀ (f g : Nat) (s : Str),
    s.length ≤ f → s.length ≤ g → pmGo anchors f s = pmGo anchors g s := by
  intro f
  induction f with
  | zero =>
    intro g s hf _
    have hs : s = [] := List.length_eq_zero.1 (Nat.le_zero.1 hf)
    subst hs
    cases g <;> rfl
  | succ f ih =>
    intro g s hf hg
    cases s with
    | nil => cases g <;> rfl
    | cons c cs =>
      cases g with
      | zero => simp at hg
      | succ g =>
        simp only [pmGo]
        cases hp : parseMention (c :: cs) with
        | none =>
          simp only [List.length_cons] at hf hg
          rw [ih g cs (by omega) (by omega)]
        | some v =>
          obtain ⟨d0, n0, r0⟩ := v
          have hlt := parseMention_rest_lt hp
          simp only [List.length_cons] at hf hg hlt
          dsimp only
          rw [ih g r0 (by omega) (by omega)]

theorem mentionText_ne_nil (team docid nm : Str) : mentionText team docid nm ≠ [] := by
  simp only [mentionText]
  intro hc
  rw [show chars "@<a href=\"mention://" = '@' :: chars "<a href=\"mention://" from by decide]
    at hc
  simp at hc

theorem pmGo_append (anchors : AMap) (team docid nm post : Str)
    (hteam : team ≠ []) (hteam2 : ∀ c ∈ team, c ≠ '/')
    (hdoc : docid ≠ []) (hdoc2 : ∀ c ∈ docid, c ≠ '\"')
    (hnm : nm ≠ []) (hnm2 : ∀ c ∈ nm, c ≠ '<') :
    ∀ (pre : Str), (∀ c ∈ pre, c ≠ '@') →
      ∀ f, (pre ++ (mentionText team docid nm ++ post)).length ≤ f →
        pmGo anchors f (pre ++ (mentionText team docid nm ++ post))
          = pre ++ (mentionRepl anchors docid nm ++ process_mention_links anchors post) := by
  intro pre
  induction pre with
  | nil =>
    intro _ f hf
    simp only [List.nil_append] at hf ⊢
    cases hm : mentionText team docid nm with
    | nil => exact absurd hm (mentionText_ne_nil team docid nm)
    | cons c cs =>
      rw [← hm]
      cases f with
      | zero =>
        exfalso
        rw [hm] at hf
        simp at hf
      | succ f =>
        have hstep : mentionText team docid nm ++ post = c :: (cs ++ post) := by
          rw [hm]
          simp
        rw [hstep]
        simp only [pmGo]
        have hparse : parseMention (c :: (cs ++ post)) = some (docid, nm, post) := by
          rw [← hstep]
          exact parseMention_spec team docid nm post hteam hteam2 hdoc hdoc2 hnm hnm2
        rw [hparse]
        dsimp only
        have hpost : post.length ≤ f := by
          rw [hstep] at hf
          have hlt := parseMention_rest_lt hparse
          simp only [List.length_cons] at hf hlt
          omega
        rw [pmGo_fuel anchors f post.length post hpost (Nat.le_refl _)]
        rfl
  | cons c pre ih =>
    intro hpre f hf
    cases f with
    | zero =>
      exfalso
      simp at hf
    | succ f =>
      simp only [List.cons_append, pmGo]
      rw [parseMention_not_at _ (hpre c (by simp))]
      dsimp only
      simp only [List.append_eq]
      rw [ih (fun x hx => hpre x (by simp [hx])) f (by
        simp only [List.cons_append, List.length_cons] at hf
        omega)]

/-- C2 counterexample to the claim as stated: a mention whose document id IS
a key of the anchor map, but bound to the empty anchor, is replaced by a
non-interactive span, not by a hyperlink — the source guards the anchor with
Python truthiness, so an empty string behaves like a missing key. -/
theorem mention_empty_anchor_counterexample :
    lookupD [(chars "d", [])] (chars "d") = some []
    ∧ process_mention_links [(chars "d", [])]
        (chars "@<a href=\"mention://t/document/d\">N</a>")
      = chars "<span class=\"mention-link-missing\" title=\"Document not in compilation: N\">N</span>"
    ∧ process_mention_links [(chars "d", [])]
        (chars "@<a href=\"mention://t/document/d\">N</a>")
      ≠ chars "<a href=\"#\" class=\"mention-link\" title=\"Jump to: N\">N</a>" :=
  ⟨by decide, by decide, by decide⟩

/-- C2 (amended): in any HTML fragment of the shape
`pre ++ mention ++ post` where `pre` holds no `@`, the mention occurrence
`@<a href="mention://TEAM/document/DOCID">NAME</a>` is replaced by a
hyperlink to `#ANCHOR` containing the display text NAME when the anchor map
binds DOCID to a NONEMPTY anchor, and by a non-interactive span containing
NAME — never a hyperlink — when DOCID is not a key of the map or is bound to
the empty string; the remainder of the fragment is processed independently. -/
theorem mention_resolution (anchors : AMap) (team docid nm pre post : Str)
    (hpre : ∀ c ∈ pre, c ≠ '@')
    (hteam : team ≠ []) (hteam2 : ∀ c ∈ team, c ≠ '/')
    (hdoc : docid ≠ []) (hdoc2 : ∀ c ∈ docid, c ≠ '\"')
    (hnm : nm ≠ []) (hnm2 : ∀ c ∈ nm, c ≠ '<') :
    (∀ a, lookupD anchors docid = some a → a ≠ [] →
        process_mention_links anchors (pre ++ (mentionText team docid nm ++ post))
          = pre ++ (mentionLink a nm ++ process_mention_links anchors post))
    ∧ (lookupD anchors docid = none →
        process_mention_links anchors (pre ++ (mentionText team docid nm ++ post))
          = pre ++ (mentionSpan nm ++ process_mention_links anchors post))
    ∧ (lookupD anchors docid = some [] →
        process_mention_links anchors (pre ++ (mentionText team docid nm ++ post))
          = pre ++ (mentionSpan nm ++ process_mention_links anchors post)) := by
  have hmain := pmGo_append anchors team docid nm post hteam hteam2 hdoc hdoc2 hnm hnm2
    pre hpre (pre ++ (mentionText team docid nm ++ post)).length (Nat.le_refl _)
  refine ⟨?_, ?_, ?_⟩
  · intro a hla hane
    rw [process_mention_links, hmain]
    have haE : a.isEmpty = false := by
      cases a with
      | nil => exact absurd rfl hane
      | cons x xs => rfl
    simp [mentionRepl, hla, haE]
  · intro hla
    rw [process_mention_links, hmain]
    simp [mentionRepl, hla]
  · intro hla
    rw [process_mention_links, hmain]
    simp [mentionRepl, hla]

/-- Witness for C2 (amended): the two concrete examples of the claim — a
resolvable mention becomes a hyperlink to `#doc-0` with text `Spec`, and a
mention of the absent id `doc-999` becomes a span. -/
theorem mention_resolution_witness :
    process_mention_links [(chars "doc-123", chars "doc-0")]
        (chars "@<a href=\"mention://team1/document/doc-123\">Spec</a>")
      = chars "<a href=\"#doc-0\" class=\"mention-link\" title=\"Jump to: Spec\">Spec</a>"
    ∧ process_mention_links [(chars "doc-123", chars "doc-0")]
        (chars "@<a href=\"mention://team1/document/doc-999\">Spec</a>")
      = chars "<span class=\"mention-link-missing\" title=\"Document not in compilation: Spec\">Spec</span>" := by
  constructor
  · have h := (mention_resolution [(chars "doc-123", chars "doc-0")] (chars "team1")
      (chars "doc-123") (chars "Spec") [] [] (by decide) (by decide) (by decide)
      (by decide) (by decide) (by decide) (by decide)).1 (chars "doc-0") (by decide)
      (by decide)
    rw [show ([] : Str) ++ (mentionText (chars "team1") (chars "doc-123") (chars "Spec") ++ [])
        = chars "@<a href=\"mention://team1/document/doc-123\">Spec</a>" from by decide] at h
    exact h.trans (by decide)
  · have h := (mention_resolution [(chars "doc-123", chars "doc-0")] (chars "team1")
      (chars "doc-999") (chars "Spec") [] [] (by decide) (by decide) (by decide)
      (by decide) (by decide) (by decide) (by decide)).2.1 (by decide)
    rw [show ([] : Str) ++ (mentionText (chars "team1") (chars "doc-999") (chars "Spec") ++ [])
        = chars "@<a href=\"mention://team1/document/doc-999\">Spec</a>" from by decide] at h
    exact h.trans (by decide)
